import Mathlib

/-!
Verification of the `stuffer` steganography tool (Go sources:
`bitwriter.go`, `image_hidden_data.go`, RSA helper file).

Shallow embedding conventions:
* Bytes are `Nat` values; the byte invariant `< 256` is carried as a
  hypothesis where a claim needs it (Go's `byte` type guarantees it).
* An image is its pixel grid: a row-major list of RGBA pixels plus the
  declared width and height.  The color-model check of the Go code is a
  construction-time guard (`RGBA`/`NRGBA` both have the same channel
  layout, and `colorToRGBA` is the identity on the channels), so the
  embedding works on one pixel type.
* External primitives that the spec declares out of scope (SHA-256,
  AES-GCM, RSA, the pseudo-random generator of `math/rand`, the wall
  clock) are abstracted into an explicit `Ext` record of functions; the
  hypotheses a theorem needs about them (output lengths, byte bounds,
  draws in range) are stated explicitly.
* Go `for` loops become folds or structural recursion; the one unbounded
  `while` loop (the cycle-following inversion in `decodeImage`) gets an
  explicit fuel argument, and the theorems prove that the fuel used by
  the embedding is never exhausted on the states the program reaches.
-/

namespace Stuffer

/-- Constants from `image_hidden_data.go`. -/
def HASH_SIZE : Nat := 32

def FSIZE_LEN : Nat := 4

def TIMESTAMP_LEN : Nat := 8

def RSA_SIZE : Nat := 256

/-- An RGBA pixel: one 8-bit value per channel (`color.RGBA` / the
channel content of `color.NRGBA`). -/
structure RGBA where
  r : Nat
  g : Nat
  b : Nat
  a : Nat
deriving DecidableEq, Repr

instance : Inhabited RGBA := ⟨⟨0, 0, 0, 0⟩⟩

/-- `bitEmbed` from `image_hidden_data.go`: set the last bit of a byte to
the given value (`b | 1` resp. `b & ^byte(1)`, and `^byte(1) = 0xFE`). -/
def bitEmbed (b : Nat) (bit : Bool) : Nat :=
  if bit then b ||| 1 else b &&& 254

/-- `colorEmbed` from `image_hidden_data.go`: embed a bit into the channel
selected by `pos` (0 = R, 1 = G, 2 = B); an invalid `pos` only logs to
stderr and returns the unmodified copy. -/
def colorEmbed (c : RGBA) (pos : Nat) (bit : Bool) : RGBA :=
  match pos with
  | 0 => { c with r := bitEmbed c.r bit }
  | 1 => { c with g := bitEmbed c.g bit }
  | 2 => { c with b := bitEmbed c.b bit }
  | _ => c

/-- A pixel grid with origin bounds: `pix` is the row-major pixel list,
intended to have length `w * h`. -/
structure Img where
  w : Nat
  h : Nat
  pix : List RGBA
deriving DecidableEq, Repr

/-- `im.At(x, y)` — reading outside the grid yields the zero color, as
for the Go image types. -/
def Img.At (im : Img) (x y : Nat) : RGBA :=
  im.pix.getD (y * im.w + x) default

/-- `im.Set(x, y, c)` — setting outside the bounds is a no-op, as for the
Go image types. -/
def Img.SetPix (im : Img) (x y : Nat) (c : RGBA) : Img :=
  if x < im.w ∧ y < im.h then { im with pix := im.pix.set (y * im.w + x) c } else im

/-- The image is well formed: the pixel list matches the declared
dimensions and every channel is a byte. -/
def Img.WF (im : Img) : Prop :=
  im.pix.length = im.w * im.h ∧
    ∀ p ∈ im.pix, p.r < 256 ∧ p.g < 256 ∧ p.b < 256 ∧ p.a < 256

/-- `BitWriter` from `bitwriter.go`; the downstream `bytes.Buffer` sink is
the `out` list. -/
structure BitWriter where
  out : List Nat
  currentByte : Nat
  currentPos : Nat
deriving DecidableEq, Repr

/-- `BitWriter.Flush`. -/
def BitWriter.Flush (bw : BitWriter) : BitWriter :=
  ⟨bw.out ++ [bw.currentByte], 0, 0⟩

/-- `BitWriter.WriteBit`. -/
def BitWriter.WriteBit (bw : BitWriter) (bit : Bool) : BitWriter :=
  let cb := if bit then bw.currentByte ||| (1 <<< bw.currentPos) else bw.currentByte
  if bw.currentPos + 1 ≥ 8 then BitWriter.Flush ⟨bw.out, cb, bw.currentPos + 1⟩
  else ⟨bw.out, cb, bw.currentPos + 1⟩

/-- The three channel LSBs of one pixel, in R, G, B order, as they are
fed to the bit writer by `GetHiddenBytesFromImage`. -/
def pixBits (p : RGBA) : List Bool :=
  [decide (p.r &&& 1 ≠ 0), decide (p.g &&& 1 ≠ 0), decide (p.b &&& 1 ≠ 0)]

/-- `GetHiddenBytesFromImage` from `image_hidden_data.go`: scan the
pixels in row-major order, feed the R, G, B channel LSBs to a fresh
`BitWriter`, and return the accumulated bytes (the trailing partial byte
is never flushed). -/
def GetHiddenBytesFromImage (im : Img) : List Nat :=
  ((List.range im.h).foldl (fun bw j =>
    (List.range im.w).foldl (fun bw i =>
      ((bw.WriteBit ((im.At i j).r &&& 1 ≠ 0)).WriteBit
        ((im.At i j).g &&& 1 ≠ 0)).WriteBit ((im.At i j).b &&& 1 ≠ 0)) bw)
    (⟨[], 0, 0⟩ : BitWriter)).out

/-- Specification companion of the `BitWriter` fold: the bytes emitted
when the bits `bs` are written starting from accumulator `cb` at bit
position `p`. -/
def accBytes (cb p : Nat) : List Bool → List Nat
  | [] => []
  | b :: bs =>
    let cb' := if b then cb ||| (1 <<< p) else cb
    if p + 1 ≥ 8 then cb' :: accBytes 0 0 bs else accBytes cb' (p + 1) bs

/-- The bit stream fed to the bit writer by `GetHiddenBytesFromImage`:
row-major traversal of the grid, R, G, B channel LSBs per pixel. -/
def travBits (im : Img) : List Bool :=
  (List.range im.h).flatMap fun j =>
    (List.range im.w).flatMap fun i => pixBits (im.At i j)

/-- The channel-LSB stream of the stored pixel list. -/
def lsbStream (im : Img) : List Bool :=
  im.pix.flatMap pixBits

/-- The 8 bits of a byte, LSB first, as `ImageByteWriter.writeByte` embeds
them (`data & (1 << i) != 0` for `i = 0..7`). -/
def bits8 (b : Nat) : List Bool :=
  (List.range 8).map fun i => decide (b &&& (1 <<< i) ≠ 0)

/-- The full bit stream of a byte string, as it lands in the carrier. -/
def bitsOfBytes (l : List Nat) : List Bool :=
  l.flatMap bits8

/-- Error values returned by the carrier writer (`io.EOF`,
`io.ErrUnexpectedEOF`). -/
inductive IOError where
  | eof
  | unexpectedEOF
deriving DecidableEq, Repr

/-- `ImageByteWriter` from `image_hidden_data.go`. -/
structure ImageByteWriter where
  im : Img
  currentX : Nat
  currentY : Nat
  currentRGB : Nat
  currentByte : Nat
  w : Nat
  h : Nat
  capacity : Nat
deriving DecidableEq, Repr

/-- `NewImageByteWriter` (the color-model guard is a construction-time
check; the embedding's images are RGB(A) by construction). -/
def NewImageByteWriter (im : Img) : ImageByteWriter :=
  { im := im, currentX := 0, currentY := 0, currentRGB := 0, currentByte := 0,
    w := im.w, h := im.h, capacity := im.w * im.h * 3 / 8 }

/-- `ImageByteWriter.increment`: advance the channel cursor, wrapping
channel → x → y; reports `true` when the cursor is already past the last
row. -/
def ImageByteWriter.increment (ibw : ImageByteWriter) : Bool × ImageByteWriter :=
  if ibw.currentY ≥ ibw.h then (true, ibw)
  else
    if ibw.currentRGB + 1 > 2 then
      if ibw.currentX + 1 ≥ ibw.w then
        (false, { ibw with currentRGB := 0, currentX := 0, currentY := ibw.currentY + 1 })
      else
        (false, { ibw with currentRGB := 0, currentX := ibw.currentX + 1 })
    else
      (false, { ibw with currentRGB := ibw.currentRGB + 1 })

/-- One iteration of the bit loop of `ImageByteWriter.writeByte`: embed
bit `i` of `data` at the cursor, then advance; an error short-circuits
the remaining iterations (the Go loop returns at once). -/
def writeByteStep (data : Nat) (acc : Option IOError × ImageByteWriter) (i : Nat) :
    Option IOError × ImageByteWriter :=
  match acc with
  | (some e, st) => (some e, st)
  | (none, st) =>
    let bit := decide (data &&& (1 <<< i) ≠ 0)
    let st' := { st with
      im := st.im.SetPix st.currentX st.currentY
        (colorEmbed (st.im.At st.currentX st.currentY) st.currentRGB bit) }
    match st'.increment with
    | (true, st'') => (some .unexpectedEOF, st'')
    | (false, st'') => (none, st'')

/-- `ImageByteWriter.writeByte`: embed the 8 bits of `data`, LSB first,
into consecutive channel LSBs; mutations performed before a failing
`increment` persist, as they do on the Go image. -/
def ImageByteWriter.writeByte (ibw : ImageByteWriter) (data : Nat) :
    Option IOError × ImageByteWriter :=
  if ibw.capacity ≤ ibw.currentByte then (some .unexpectedEOF, ibw)
  else
    (List.range 8).foldl (writeByteStep data) (none, ibw)

/-- The byte-writing loop of `ImageByteWriter.Write`: writes each byte,
incrementing `currentByte` after each success; an error from `writeByte`
aborts with the index of the failing byte. -/
def ImageByteWriter.writeList : ImageByteWriter → Nat → List Nat →
    Option (Nat × IOError) × ImageByteWriter
  | ibw, _, [] => (none, ibw)
  | ibw, i, b :: rest =>
    match ibw.writeByte b with
    | (some e, st) => (some (i, e), st)
    | (none, st) => ImageByteWriter.writeList { st with currentByte := st.currentByte + 1 }
        (i + 1) rest

/-- `ImageByteWriter.Write`: truncate the input to the remaining capacity
(signalling `io.EOF`), then write the bytes; returns the count written
and the error, as the Go method does. -/
def ImageByteWriter.Write (ibw : ImageByteWriter) (data : List Nat) :
    (Nat × Option IOError) × ImageByteWriter :=
  if ibw.capacity - ibw.currentByte < data.length then
    match ibw.writeList 0 (data.take (ibw.capacity - ibw.currentByte)) with
    | (some (i, e), st) => ((i, some e), st)
    | (none, st) =>
        (((data.take (ibw.capacity - ibw.currentByte)).length, some .eof), st)
  else
    match ibw.writeList 0 data with
    | (some (i, e), st) => ((i, some e), st)
    | (none, st) => ((data.length, (none : Option IOError)), st)

/-- `BitPos` from `image_hidden_data.go`. -/
def ImageByteWriter.BitPos (ibw : ImageByteWriter) : Nat :=
  (ibw.currentY * ibw.w + ibw.currentX) * 3 + ibw.currentRGB

/-- The cursor is in a state reachable by repeated `increment`s from the
origin: in bounds, or parked at the end-of-grid sentinel (which for an
empty grid is the origin itself). -/
def cursorOK (ibw : ImageByteWriter) : Prop :=
  (ibw.currentRGB < 3 ∧ ibw.currentX < ibw.w ∧ ibw.currentY < ibw.h) ∨
    (ibw.currentRGB = 0 ∧ ibw.currentX = 0 ∧
      (ibw.currentY = ibw.h ∨ (ibw.currentY = 0 ∧ ibw.w * ibw.h = 0)))

/-- Well-formed writer state: dimensions cached from the image, capacity
as fixed at construction, cursor consistent with the byte counter. -/
structure WFW (ibw : ImageByteWriter) : Prop where
  hw : ibw.w = ibw.im.w
  hh : ibw.h = ibw.im.h
  hpix : ibw.im.pix.length = ibw.im.w * ibw.im.h
  hcap : ibw.capacity = ibw.w * ibw.h * 3 / 8
  hcur : cursorOK ibw
  hpos : ibw.BitPos = 8 * ibw.currentByte
  hcb : ibw.currentByte ≤ ibw.capacity

/-- Setting the LSB of channel slot `t` (pixel `t / 3`, channel `t % 3`)
of the grid: the pure effect of one cursor step of `writeByte`. -/
def setLSB (im : Img) (t : Nat) (bit : Bool) : Img :=
  { im with pix := im.pix.set (t / 3) (colorEmbed (im.pix.getD (t / 3) default) (t % 3) bit) }

/-- Iterating `setLSB` over consecutive slots. -/
def applyBits (im : Img) (t : Nat) : List Bool → Img
  | [] => im
  | b :: bs => applyBits (setLSB im t b) (t + 1) bs

/-- Cursor-level well-formedness, preserved across the bit loop. -/
structure CurWF (st : ImageByteWriter) : Prop where
  hw : st.w = st.im.w
  hh : st.h = st.im.h
  hpix : st.im.pix.length = st.im.w * st.im.h
  hcur : cursorOK st

/-- External primitives the core code calls but whose implementations the
spec declares out of scope: SHA-256, the `math/rand` generator (exposed
as the value `gdraw seed n i` drawn from `[0, i]` when shuffling a
length-`n` buffer at descending index `i`), AES-GCM sealing with its
random key and nonce, RSA encryption, the wall clock, and the GCM tag
overhead. -/
structure Ext where
  sha256 : List Nat → List Nat
  gdraw : Int → Nat → Nat → Nat
  aesKey : List Nat
  gcmNonce : List Nat
  gcmSeal : List Nat → List Nat → List Nat → List Nat
  rsaEncrypt : List Nat → List Nat
  timestampBytes : List Nat
  gcmOverhead : Nat

/-- Go's `int64(u)` reinterpretation of a `uint64` value. -/
def toInt64 (u : Nat) : Int :=
  if u < 2 ^ 63 then (u : Int) else (u : Int) - 2 ^ 64

/-- `binary.BigEndian.Uint64` over a byte slice. -/
def beUint64 (bs : List Nat) : Nat :=
  bs.foldl (fun a b => a * 256 + b) 0

/-- `binary.BigEndian.Uint32` over a byte slice. -/
def beUint32 (bs : List Nat) : Nat :=
  bs.foldl (fun a b => a * 256 + b) 0

/-- `binary.BigEndian.PutUint32`: the four bytes written. -/
def putUint32 (v : Nat) : List Nat :=
  [v / 2 ^ 24 % 256, v / 2 ^ 16 % 256, v / 2 ^ 8 % 256, v % 256]

/-- `indexes[i], indexes[j] = indexes[j], indexes[i]` — the swap callback
passed to `rand.Shuffle`, on a list. -/
def swapL {α : Type} [Inhabited α] (l : List α) (i j : Nat) : List α :=
  (l.set i (l.getD j default)).set j (l.getD i default)

/-- The descending Fisher–Yates swap loop of `rand.Shuffle`: for `i` from
the given start down to `1`, swap positions `i` and `d i`, where `d i` is
the generator's draw from `[0, i]`. -/
def fyDown {α : Type} [Inhabited α] (d : Nat → Nat) : Nat → List α → List α
  | 0, l => l
  | i + 1, l => fyDown d i (swapL l (i + 1) (d (i + 1)))

/-- `rand.Shuffle(n, swap)` for a buffer `l`: one full Fisher–Yates pass,
`i` descending from `n - 1` to `1`. -/
def rShuffle {α : Type} [Inhabited α] (d : Nat → Nat) (n : Nat) (l : List α) : List α :=
  fyDown d (n - 1) l

/-- The `i`-th 8-byte big-endian word of `SHA-256(seed string)`,
reinterpreted as a signed 64-bit generator seed — the seed derivation
both `encodeImage` and `decodeImage` perform. -/
def seedAt (E : Ext) (seedStr : List Nat) (i : Nat) : Int :=
  toInt64 (beUint64 (((E.sha256 seedStr).drop (i * 8)).take 8))

/-- The 4-round shuffle loop of `encodeImage`: hash the seed string, and
for each of the four 8-byte words run a freshly seeded `rand.Shuffle`
pass over the whole buffer. -/
def shuffle4 {α : Type} [Inhabited α] (E : Ext) (seedStr : List Nat) (l : List α) : List α :=
  (List.range 4).foldl (fun acc i =>
    rShuffle (E.gdraw (seedAt E seedStr i) acc.length) acc.length acc) l

/-- The index-array replay of `decodeImage`: initialize `indexes[i] = i`
and apply the identical 4-round shuffle (this code is duplicated in the
Go source; its seed expression is spelled out again here). -/
def decodeReplayIdx (E : Ext) (seedStr : List Nat) (n : Nat) : List Nat :=
  (List.range 4).foldl (fun idx i =>
    rShuffle
      (E.gdraw (toInt64 (beUint64 (((E.sha256 seedStr).drop (i * 8)).take 8))) idx.length)
      idx.length idx)
    (List.range n)

/-- The inner `for newidx != oldidx` loop of `decodeImage`'s cycle
inversion; the Go loop is unbounded, so the embedding carries fuel, shown
sufficient whenever the index array is a permutation. -/
def cycleWalk {α : Type} [Inhabited α] : List α → List Nat → Nat → Nat → List α × List Nat
  | data, idx, _, 0 => (data, idx)
  | data, idx, i, fuel + 1 =>
    let o := idx.getD i 0
    if o = i then (data, idx)
    else cycleWalk (swapL data i o) (swapL idx i o) i fuel

/-- The outer `for newidx := range indexes` loop of the cycle
inversion. -/
def unshuffleOuter {α : Type} [Inhabited α] : List α → List Nat → Nat → Nat → List α × List Nat
  | data, idx, _, 0 => (data, idx)
  | data, idx, start, todo + 1 =>
    let p := cycleWalk data idx start (idx.length + 1)
    unshuffleOuter p.1 p.2 (start + 1) todo

/-- The whole unshuffle stage of `decodeImage`: replay the shuffle on an
identity index array, then restore the data in place by cycle
following. -/
def decodeUnshuffle (E : Ext) (seedStr : List Nat) (hiddenData : List Nat) : List Nat :=
  (unshuffleOuter hiddenData (decodeReplayIdx E seedStr hiddenData.length)
    0 hiddenData.length).1

/-- Explicit swap-pair form of one Fisher–Yates pass (specification
device for reasoning about the shuffles). -/
def applySwaps {α : Type} [Inhabited α] (sw : List (Nat × Nat)) (l : List α) : List α :=
  sw.foldl (fun a p => swapL a p.1 p.2) l

/-- The swap pairs `(i, d i)` for `i` descending from the start to 1. -/
def downSwaps (d : Nat → Nat) : Nat → List (Nat × Nat)
  | 0 => []
  | i + 1 => (i + 1, d (i + 1)) :: downSwaps d i

/-- The transposition of `i` and `j` as a function on positions. -/
def swapIdx (i j k : Nat) : Nat :=
  if k = j then i else if k = i then j else k

/-- The invariant tying the shuffled data to the shuffled index array:
both受 the same swaps, and each position of the data holds the original
element at the position recorded in the index array. -/
def SwapRel {α : Type} [Inhabited α] (orig l : List α) (x : List Nat) (n : Nat) : Prop :=
  l.length = n ∧ x.length = n ∧
    (∀ k, k < n → x.getD k 0 < n) ∧
    (∀ k1 k2, k1 < n → k2 < n → k1 ≠ k2 → x.getD k1 0 ≠ x.getD k2 0) ∧
    (∀ k, k < n → l.getD k default = orig.getD (x.getD k 0) default)

/-- Number of positions the index array has not yet restored. -/
def unfixedCount (x : List Nat) (n : Nat) : Nat :=
  ((Finset.range n).filter (fun k => x.getD k 0 ≠ k)).card

/-- The concatenated swap pairs of the four shuffle rounds, in
application order. -/
def roundsSwapsAux (E : Ext) (seedStr : List Nat) (n : Nat) : List Nat → List (Nat × Nat)
  | [] => []
  | i :: is =>
    downSwaps (E.gdraw (seedAt E seedStr i) n) (n - 1) ++ roundsSwapsAux E seedStr n is

/-- The program configuration fields the codec pipeline reads (`verbose`
only controls logging and is omitted; strings are byte lists). A
non-empty `keyFile` selects the encrypted envelope; a non-empty
`shuffleSeed` enables the permutation stage. -/
structure Prog where
  doHash : Bool
  shuffleSeed : List Nat
  keyFile : List Nat

inductive EncError where
  | sizeInvalid
  | capacityTooSmall
  | sealTooBig
  | rsaSizeWrong
  | writeFail
deriving DecidableEq, Repr

inductive DecError where
  | slicePanic
  | lengthZero
  | lengthTooLarge
  | hashMismatch
deriving DecidableEq, Repr

/-- `encryptDataWithRSA` from the RSA helper file, with the external
crypto abstracted: `gcm.Seal(nonce, nonce, data, nil)` returns the nonce
followed by the sealed ciphertext; the 104-byte tail plaintext
`[key, nonce, timestamp, extension, length, hash]` is assembled and
RSA-encrypted.  Returns `(aesResult, rsaData, encrypted)`, exposing the
tail plaintext `rsaData` that the Go function builds internally. -/
def encryptDataWithRSA (E : Ext) (data : List Nat) (extension : List Nat)
    (hashAndLength : List Nat) : List Nat × List Nat × List Nat :=
  let nonceSize := E.gcmNonce.length
  let resultAndNonce := E.gcmNonce ++ E.gcmSeal E.aesKey E.gcmNonce data
  let aesNonce := resultAndNonce.take nonceSize
  let aesResult := resultAndNonce.drop nonceSize
  let hashAndLength2 := putUint32 aesResult.length ++ hashAndLength.drop 4
  let extensionByte := extension.take 16 ++ List.replicate (16 - extension.length) 0
  let rsaData := E.aesKey ++ aesNonce ++ E.timestampBytes ++ extensionByte ++ hashAndLength2
  (aesResult, rsaData, E.rsaEncrypt rsaData)

/-- The envelope-building prefix of `encodeImage`, common to both modes:
size and capacity checks, extraction of the existing carrier bytes,
payload copy, big-endian length write at `capacity - 36`, and — unless
hashing is disabled — the SHA-256 write at `capacity - 32`. -/
def envelopePrep (E : Ext) (p : Prog) (im : Img) (data : List Nat) :
    Except EncError (List Nat) :=
  let ibw := NewImageByteWriter im
  let sz := data.length
  if sz > 2 ^ 32 - 1 then .error .sizeInvalid
  else
    let required := if p.keyFile ≠ [] then sz + E.gcmOverhead + RSA_SIZE
      else sz + HASH_SIZE + FSIZE_LEN
    if ibw.capacity < required then .error .capacityTooSmall
    else
      let hd0 := GetHiddenBytesFromImage im
      let hd1 := data ++ hd0.drop sz
      let sizePos := hd1.length - HASH_SIZE - FSIZE_LEN
      let hd2 := hd1.take sizePos ++ putUint32 sz ++ hd1.drop (sizePos + FSIZE_LEN)
      .ok (if p.doHash then hd2.take (hd2.length - HASH_SIZE) ++ E.sha256 (hd2.take sz)
        else hd2)

/-- The final stage of `encodeImage`: shuffle the buffer if a seed is
given, then write it into the carrier from position zero; any write
error aborts the encode. -/
def writeStage (E : Ext) (p : Prog) (im : Img) (hd4 : List Nat) : Except EncError Img :=
  match (NewImageByteWriter im).Write
      (if p.shuffleSeed ≠ [] then shuffle4 E p.shuffleSeed hd4 else hd4) with
  | ((_, some _), _) => .error .writeFail
  | ((_, none), st) => .ok st.im

/-- The remainder of `encodeImage` after the envelope build: optional
encryption (ciphertext over the payload prefix, exact 256-byte RSA tail
over the last bytes, with the two size assertions), then the shuffle and
write stage. -/
def encodeAfterPrep (E : Ext) (p : Prog) (im : Img) (extension : List Nat)
    (data hd3 : List Nat) : Except EncError Img :=
  match (if p.keyFile ≠ [] then
      (let r := encryptDataWithRSA E (hd3.take data.length) extension
        (hd3.drop (hd3.length - HASH_SIZE - FSIZE_LEN))
       if r.1.length > data.length + E.gcmOverhead then Except.error EncError.sealTooBig
       else if r.2.2.length ≠ RSA_SIZE then Except.error EncError.rsaSizeWrong
       else Except.ok ((r.1 ++ hd3.drop r.1.length).take (hd3.length - RSA_SIZE) ++ r.2.2))
    else Except.ok hd3) with
  | .error e => .error e
  | .ok hd4 => writeStage E p im hd4

/-- `encodeImage` from `image_hidden_data.go`: build the envelope,
optionally encrypt, optionally shuffle, then write the buffer into the
carrier. -/
def encodeImage (E : Ext) (p : Prog) (im : Img) (extension : List Nat)
    (data : List Nat) : Except EncError Img :=
  match envelopePrep E p im data with
  | .error e => .error e
  | .ok hd3 => encodeAfterPrep E p im extension data hd3

/-- The plain-envelope parse stage of `decodeImage`, applied to the
(unshuffled) extracted buffer: read the 4-byte big-endian length at
`capacity - 36`, reject zero or oversized lengths, optionally verify the
SHA-256 over the payload prefix against the trailing 32 bytes, and emit
the payload.  A buffer shorter than 36 bytes makes the Go code panic on
the slice expression; the embedding reports that as `slicePanic`. -/
def parsePlain (E : Ext) (p : Prog) (hd : List Nat) : Except DecError (List Nat) :=
  if hd.length < HASH_SIZE + FSIZE_LEN then .error .slicePanic
  else
    let lenStart := hd.length - HASH_SIZE - FSIZE_LEN
    let dataLength := beUint32 ((hd.drop lenStart).take FSIZE_LEN)
    if dataLength = 0 then .error .lengthZero
    else if dataLength > lenStart % 2 ^ 32 then .error .lengthTooLarge
    else if p.doHash ∧ E.sha256 (hd.take dataLength) ≠ hd.drop (hd.length - HASH_SIZE) then
      .error .hashMismatch
    else .ok (hd.take dataLength)

/-- `decodeImage` from `image_hidden_data.go` (plain path; the key-file
branch delegates to external RSA/AES decryption and no claim concerns
it): extract the hidden bytes, unshuffle if a seed is given, then parse
the plain envelope and emit the payload. -/
def decodeImage (E : Ext) (p : Prog) (im : Img) : Except DecError (List Nat) :=
  let hd0 := GetHiddenBytesFromImage im
  parsePlain E p (if p.shuffleSeed ≠ [] then decodeUnshuffle E p.shuffleSeed hd0 else hd0)

/-- The 104-byte RSA-tail plaintext built by an encode run with a key
file, mirroring the `encryptDataWithRSA` call site inside
`encodeImage`. -/
def encodeRsaTailPlain (E : Ext) (p : Prog) (im : Img) (extension data : List Nat) :
    Option (List Nat) :=
  match envelopePrep E p im data with
  | .error _ => none
  | .ok hd3 => some (encryptDataWithRSA E (hd3.take data.length) extension
      (hd3.drop (hd3.length - HASH_SIZE - FSIZE_LEN))).2.1

/-- A concrete instance of the external primitives, used to evaluate the
pipeline on explicit inputs: a constant 32-byte hash, a generator that
always draws 0 (a legal draw from every `[0, i]`), fixed key/nonce
material, a seal that appends a 16-byte tag. -/
def EZ : Ext :=
  { sha256 := fun _ => List.replicate 32 0
    gdraw := fun _ _ _ => 0
    aesKey := List.replicate 32 0
    gcmNonce := List.replicate 12 0
    gcmSeal := fun _ _ d => d ++ List.replicate 16 0
    rsaEncrypt := fun _ => List.replicate 256 0
    timestampBytes := List.replicate 8 0
    gcmOverhead := 16 }

/-- Like `EZ` but with a constant all-ones hash value, to separate the
hash from all-zero carrier bytes. -/
def EO : Ext :=
  { EZ with sha256 := fun _ => List.replicate 32 1 }

/-- A 10 by 10 all-zero carrier: capacity 37 bytes. -/
def imZ : Img := ⟨10, 10, List.replicate 100 ⟨0, 0, 0, 0⟩⟩

/-- A 10 by 10 carrier whose channel LSBs are all 1. -/
def imO : Img := ⟨10, 10, List.replicate 100 ⟨1, 1, 1, 0⟩⟩

/-- A 28 by 26 all-zero carrier: capacity 273 bytes, enough for the
encrypted envelope of a 1-byte payload. -/
def imE : Img := ⟨28, 26, List.replicate 728 ⟨0, 0, 0, 0⟩⟩

/-- Encode, then decode the produced image with the same configuration
(`none` when the encode itself fails). -/
def plainRoundTripResult (E : Ext) (p : Prog) (im : Img) (ext data : List Nat) :
    Option (Except DecError (List Nat)) :=
  match encodeImage E p im ext data with
  | .error _ => none
  | .ok im2 => some (decodeImage E p im2)

/-- The channel of an RGBA pixel addressed by `colorEmbed`'s position
argument. -/
def chan (c : RGBA) (q : Nat) : Nat :=
  match q with
  | 0 => c.r
  | 1 => c.g
  | 2 => c.b
  | _ => 0

/-- Plain configuration, hashing disabled, no seed, no key. -/
def pPlainNoHash : Prog := ⟨false, [], []⟩

/-- Plain configuration, hashing enabled, no seed, no key. -/
def pPlainHash : Prog := ⟨true, [], []⟩

/-- Plain configuration, hashing enabled, shuffle seed `"a"`, no key. -/
def pPlainSeedHash : Prog := ⟨true, [97], []⟩

/-- Encrypted-mode configuration with hashing disabled. -/
def pEncNoHash : Prog := ⟨false, [], [107]⟩

/-- Encrypted-mode configuration with hashing enabled. -/
def pEncHash : Prog := ⟨true, [], [107]⟩

theorem foldl_writeBit_out (bs : List Bool) (out : List Nat) (cb p : Nat) :
    (bs.foldl BitWriter.WriteBit ⟨out, cb, p⟩).out = out ++ accBytes cb p bs := by
  induction bs generalizing out cb p with
  | nil => simp [accBytes]
  | cons b bs ih =>
    simp only [List.foldl_cons, BitWriter.WriteBit, accBytes]
    by_cases h : p + 1 ≥ 8
    · simp only [h, if_true, BitWriter.Flush, ih, List.append_assoc, List.singleton_append]
    · simp only [h, if_false, ih]

theorem accBytes_length (bs : List Bool) (cb p : Nat) (hp : p < 8) :
    (accBytes cb p bs).length = (p + bs.length) / 8 := by
  induction bs generalizing cb p with
  | nil => simp [accBytes]; omega
  | cons b bs ih =>
    simp only [accBytes, List.length_cons]
    by_cases h : p + 1 ≥ 8
    · rw [if_pos h, List.length_cons, ih 0 0 (by omega)]
      omega
    · rw [if_neg h, ih _ _ (by omega)]
      omega

theorem shiftLeft_one_lt (p : Nat) (hp : p < 8) : 1 <<< p < 256 := by
  rw [Nat.one_shiftLeft]
  calc 2 ^ p ≤ 2 ^ 7 := Nat.pow_le_pow_right (by omega) (by omega)
    _ < 256 := by omega

theorem accBytes_lt (bs : List Bool) (cb p : Nat) (hcb : cb < 256) (hp : p < 8) :
    ∀ x ∈ accBytes cb p bs, x < 256 := by
  induction bs generalizing cb p with
  | nil => simp [accBytes]
  | cons b bs ih =>
    have hcb' : (if b then cb ||| (1 <<< p) else cb) < 256 := by
      cases b with
      | false => simpa using hcb
      | true =>
        simp only [if_true]
        have h1 : 1 <<< p < 256 := shiftLeft_one_lt p hp
        have h2 : cb ||| (1 <<< p) < 2 ^ 8 := Nat.or_lt_two_pow (by omega) (by omega)
        omega
    simp only [accBytes]
    by_cases h : p + 1 ≥ 8
    · rw [if_pos h]
      intro x hx
      rcases List.mem_cons.mp hx with rfl | hx'
      · exact hcb'
      · exact ih 0 0 (by omega) (by omega) x hx'
    · rw [if_neg h]
      exact ih _ _ hcb' (by omega)

theorem accBytes_nil_of_short (bs : List Bool) (cb p : Nat) (h : p + bs.length < 8) :
    accBytes cb p bs = [] := by
  induction bs generalizing cb p with
  | nil => simp [accBytes]
  | cons b bs ih =>
    simp only [accBytes, List.length_cons] at *
    have h8 : ¬ p + 1 ≥ 8 := by omega
    simp only [h8, if_false]
    exact ih _ _ (by omega)

theorem foldl_flatMap {α β γ : Type} (l : List α) (f : α → List β) (g : γ → β → γ) (b : γ) :
    (l.flatMap f).foldl g b = l.foldl (fun b a => (f a).foldl g b) b := by
  induction l generalizing b with
  | nil => rfl
  | cons x xs ih => simp [List.flatMap_cons, List.foldl_append, ih]

theorem getHiddenBytes_eq_accBytes (im : Img) :
    GetHiddenBytesFromImage im = accBytes 0 0 (travBits im) := by
  have h2 := foldl_writeBit_out (travBits im) [] 0 0
  rw [List.nil_append] at h2
  rw [← h2]
  unfold GetHiddenBytesFromImage travBits
  rw [foldl_flatMap]
  have hfun : (fun (b : BitWriter) (a : Nat) =>
      List.foldl BitWriter.WriteBit b ((List.range im.w).flatMap fun i => pixBits (im.At i a)))
      = fun (bw : BitWriter) (j : Nat) =>
        (List.range im.w).foldl (fun bw i =>
          ((bw.WriteBit (decide ((im.At i j).r &&& 1 ≠ 0))).WriteBit
            (decide ((im.At i j).g &&& 1 ≠ 0))).WriteBit
            (decide ((im.At i j).b &&& 1 ≠ 0))) bw := by
    funext bw j
    rw [foldl_flatMap]
    rfl
  rw [hfun]

theorem sum_map_const {α : Type} (l : List α) (c : Nat) :
    (l.map fun _ => c).sum = l.length * c := by
  rw [List.map_const', List.sum_replicate, smul_eq_mul]

theorem travBits_length (im : Img) : (travBits im).length = 3 * (im.w * im.h) := by
  unfold travBits
  rw [List.length_flatMap]
  have h1 : (List.map
      (List.length ∘ fun j => (List.range im.w).flatMap fun i => pixBits (im.At i j))
      (List.range im.h)) = List.map (fun _ => 3 * im.w) (List.range im.h) := by
    apply List.map_congr_left
    intro j _
    show (((List.range im.w).flatMap fun i => pixBits (im.At i j))).length = 3 * im.w
    rw [List.length_flatMap]
    have h2 : (List.map (List.length ∘ fun i => pixBits (im.At i j)) (List.range im.w))
        = List.map (fun _ => 3) (List.range im.w) := List.map_congr_left (fun i _ => rfl)
    rw [h2, sum_map_const, List.length_range, Nat.mul_comm]
  rw [h1, sum_map_const, List.length_range]
  ring

theorem map_getD_range {α : Type} [Inhabited α] (l : List α) :
    (List.range l.length).map (fun t => l.getD t default) = l := by
  induction l with
  | nil => rfl
  | cons a l ih =>
    rw [List.length_cons, List.range_succ_eq_map, List.map_cons, List.map_map]
    have h1 : ((fun t => (a :: l).getD t default) ∘ Nat.succ) = fun t => l.getD t default := by
      funext t
      rfl
    rw [h1, ih]
    rfl

theorem flatMap_range_prod {α : Type} (h w : Nat) (f : Nat → α) :
    ((List.range h).flatMap fun j => (List.range w).map fun i => f (j * w + i))
      = (List.range (h * w)).map f := by
  induction h with
  | zero => simp
  | succ h ih =>
    rw [List.range_succ, List.flatMap_append, ih]
    rw [Nat.succ_mul, List.range_add, List.map_append, List.map_map]
    congr 1
    simp only [List.flatMap_cons, List.flatMap_nil, List.append_nil]
    apply List.map_congr_left
    intro x _
    simp [Function.comp]

theorem trav_pixels (im : Img) (hwf : im.pix.length = im.w * im.h) :
    ((List.range im.h).flatMap fun j => (List.range im.w).map fun i => im.At i j)
      = im.pix := by
  calc ((List.range im.h).flatMap fun j => (List.range im.w).map fun i => im.At i j)
      = ((List.range im.h).flatMap fun j =>
          (List.range im.w).map fun i => im.pix.getD (j * im.w + i) default) := rfl
    _ = (List.range (im.h * im.w)).map (fun t => im.pix.getD t default) :=
        flatMap_range_prod im.h im.w (fun t => im.pix.getD t default)
    _ = im.pix := by
        rw [show im.h * im.w = im.pix.length from by rw [hwf, Nat.mul_comm]]
        exact map_getD_range im.pix

theorem travBits_eq_lsbStream (im : Img) (hwf : im.pix.length = im.w * im.h) :
    travBits im = lsbStream im := by
  unfold travBits lsbStream
  calc ((List.range im.h).flatMap fun j =>
          (List.range im.w).flatMap fun i => pixBits (im.At i j))
      = ((List.range im.h).flatMap fun j =>
          ((List.range im.w).map fun i => im.At i j).flatMap pixBits) := by
        simp [List.flatMap_map]
    _ = (((List.range im.h).flatMap fun j =>
          (List.range im.w).map fun i => im.At i j)).flatMap pixBits := by
        rw [List.flatMap_assoc]
    _ = im.pix.flatMap pixBits := by rw [trav_pixels im hwf]

theorem bits8_length (b : Nat) : (bits8 b).length = 8 := rfl

theorem bitsOfBytes_length (l : List Nat) : (bitsOfBytes l).length = 8 * l.length := by
  unfold bitsOfBytes
  rw [List.length_flatMap]
  have h1 : (List.map (List.length ∘ bits8) l) = List.map (fun _ => 8) l :=
    List.map_congr_left (fun b _ => bits8_length b)
  rw [h1, sum_map_const, Nat.mul_comm]

theorem accBytes_append_block (xs ys : List Bool) (cb p : Nat) (hp : p < 8)
    (hlen : p + xs.length = 8) :
    accBytes cb p (xs ++ ys) = accBytes cb p xs ++ accBytes 0 0 ys := by
  induction xs generalizing cb p with
  | nil => simp at hlen; omega
  | cons x xs ih =>
    simp only [List.cons_append, accBytes, List.length_cons] at *
    by_cases h : p + 1 ≥ 8
    · have hxs : xs = [] := by
        have hl0 : xs.length = 0 := by omega
        exact List.length_eq_zero.mp hl0
      subst hxs
      rw [if_pos h, if_pos h]
      simp [accBytes]
    · rw [if_neg h, if_neg h]
      exact ih _ _ (by omega) (by omega)

set_option maxRecDepth 10000 in
theorem accBytes_bits8_single : ∀ b < 256, accBytes 0 0 (bits8 b) = [b] := by decide

theorem accBytes_bitsOfBytes (data : List Nat) (rest : List Bool)
    (hdata : ∀ x ∈ data, x < 256) (hrest : rest.length < 8) :
    accBytes 0 0 (bitsOfBytes data ++ rest) = data := by
  induction data with
  | nil =>
    simp only [bitsOfBytes, List.flatMap_nil, List.nil_append]
    exact accBytes_nil_of_short rest 0 0 (by omega)
  | cons b bs ih =>
    have hb : b < 256 := hdata b (by simp)
    simp only [bitsOfBytes, List.flatMap_cons, List.append_assoc]
    rw [accBytes_append_block _ _ 0 0 (by omega) (by simp [bits8_length]),
      accBytes_bits8_single b hb]
    simp only [List.singleton_append, List.cons.injEq, true_and]
    exact ih (fun x hx => hdata x (by simp [hx]))

theorem or_one_and_one (r : Nat) : (r ||| 1) &&& 1 = 1 := by
  rw [Nat.and_one_is_mod, Nat.mod_two_eq_one_iff_testBit_zero]
  simp [Nat.testBit_or]

theorem and254_and_one (r : Nat) : (r &&& 254) &&& 1 = 0 := by
  rw [Nat.and_assoc]
  simp

theorem bitEmbed_lsb (r : Nat) (bit : Bool) : decide (bitEmbed r bit &&& 1 ≠ 0) = bit := by
  cases bit with
  | false => simp [bitEmbed, and254_and_one]
  | true => simp [bitEmbed, or_one_and_one]

theorem bitEmbed_mod_two (r : Nat) (bit : Bool) : decide (bitEmbed r bit % 2 = 1) = bit := by
  cases bit with
  | false =>
    have h := and254_and_one r
    rw [Nat.and_one_is_mod] at h
    simp [bitEmbed, h]
  | true =>
    have h := or_one_and_one r
    rw [Nat.and_one_is_mod] at h
    simp [bitEmbed, h]

theorem pixBits_colorEmbed (p : RGBA) (c : Nat) (bit : Bool) (hc : c < 3) :
    pixBits (colorEmbed p c bit) = (pixBits p).set c bit := by
  interval_cases c <;>
    simp [pixBits, colorEmbed, bitEmbed_mod_two, List.set]

theorem lsbStream_length (im : Img) : (lsbStream im).length = 3 * im.pix.length := by
  unfold lsbStream
  rw [List.length_flatMap]
  have h1 : (List.map (List.length ∘ pixBits) im.pix) = List.map (fun _ => 3) im.pix :=
    List.map_congr_left (fun p _ => rfl)
  rw [h1, sum_map_const, Nat.mul_comm]

theorem flatMap_pixBits_set (pix : List RGBA) (t : Nat) (bit : Bool)
    (ht : t < 3 * pix.length) :
    (pix.set (t / 3) (colorEmbed (pix.getD (t / 3) default) (t % 3) bit)).flatMap pixBits
      = (pix.flatMap pixBits).set t bit := by
  induction pix generalizing t with
  | nil => simp at ht
  | cons p ps ih =>
    by_cases h3 : t < 3
    · have ht3 : t / 3 = 0 := by omega
      have hm3 : t % 3 = t := by omega
      rw [ht3, hm3]
      simp only [List.getD_cons_zero, List.set_cons_zero, List.flatMap_cons]
      rw [List.set_append_left t bit (by simp [pixBits]; omega),
        pixBits_colorEmbed p t bit h3]
    · have ht3 : t / 3 = (t - 3) / 3 + 1 := by omega
      have hm3 : t % 3 = (t - 3) % 3 := by omega
      rw [ht3, hm3]
      simp only [List.getD_cons_succ, List.set_cons_succ, List.flatMap_cons]
      rw [List.set_append_right t bit (by simp [pixBits]; omega)]
      have hlen : (pixBits p).length = 3 := rfl
      rw [hlen]
      rw [ih (t - 3) (by simp at ht ⊢; omega)]

theorem lsbStream_setLSB (im : Img) (t : Nat) (bit : Bool) (ht : t < 3 * im.pix.length) :
    lsbStream (setLSB im t bit) = (lsbStream im).set t bit := by
  unfold lsbStream setLSB
  exact flatMap_pixBits_set im.pix t bit ht

theorem setLSB_pix_length (im : Img) (t : Nat) (bit : Bool) :
    (setLSB im t bit).pix.length = im.pix.length := by
  simp [setLSB]

theorem setLSB_wh (im : Img) (t : Nat) (bit : Bool) :
    (setLSB im t bit).w = im.w ∧ (setLSB im t bit).h = im.h := by
  simp [setLSB]

theorem applyBits_pix_length (bs : List Bool) (im : Img) (t : Nat) :
    (applyBits im t bs).pix.length = im.pix.length := by
  induction bs generalizing im t with
  | nil => rfl
  | cons b bs ih => rw [applyBits, ih, setLSB_pix_length]

theorem applyBits_wh (bs : List Bool) (im : Img) (t : Nat) :
    (applyBits im t bs).w = im.w ∧ (applyBits im t bs).h = im.h := by
  induction bs generalizing im t with
  | nil => exact ⟨rfl, rfl⟩
  | cons b bs ih =>
    rw [applyBits]
    rcases ih (setLSB im t b) (t + 1) with ⟨h1, h2⟩
    rcases setLSB_wh im t b with ⟨h3, h4⟩
    exact ⟨h1.trans h3, h2.trans h4⟩

theorem applyBits_append (im : Img) (t : Nat) (xs ys : List Bool) :
    applyBits im t (xs ++ ys) = applyBits (applyBits im t xs) (t + xs.length) ys := by
  induction xs generalizing im t with
  | nil => simp [applyBits]
  | cons x xs ih =>
    rw [List.cons_append]
    show applyBits (setLSB im t x) (t + 1) (xs ++ ys)
      = applyBits (applyBits (setLSB im t x) (t + 1) xs) (t + (xs.length + 1)) ys
    rw [ih]
    congr 1
    omega

theorem applyBits_stream (bs : List Bool) (im : Img) (t : Nat)
    (h : t + bs.length ≤ 3 * im.pix.length) :
    lsbStream (applyBits im t bs)
      = (lsbStream im).take t ++ bs ++ (lsbStream im).drop (t + bs.length) := by
  induction bs generalizing im t with
  | nil => simp [applyBits]
  | cons b bs ih =>
    have ht : t < 3 * im.pix.length := by simp at h; omega
    have hts : t < (lsbStream im).length := by rw [lsbStream_length]; omega
    rw [applyBits, ih _ _ (by rw [setLSB_pix_length]; simp at h ⊢; omega)]
    rw [lsbStream_setLSB im t b ht]
    have hset := List.set_eq_take_append_cons_drop (l := lsbStream im) (n := t) (a := b)
    rw [if_pos hts] at hset
    rw [hset]
    have hlt : ((lsbStream im).take t).length = t := by
      rw [List.length_take]
      omega
    rw [List.take_append_eq_append_take, List.drop_append_eq_append_drop, hlt]
    have h1 : List.take (t + 1) (List.take t (lsbStream im)) = List.take t (lsbStream im) := by
      rw [List.take_take]
      congr 1
      omega
    have h2 : (b :: (lsbStream im).drop (t + 1)).take (t + 1 - t) = [b] := by
      rw [show t + 1 - t = 1 from by omega]
      rfl
    have h3 : ((lsbStream im).take t).drop (t + 1 + bs.length) = [] := by
      rw [List.drop_eq_nil_iff]
      omega
    have h4 : (b :: (lsbStream im).drop (t + 1)).drop (t + 1 + bs.length - t)
        = (lsbStream im).drop (t + (bs.length + 1)) := by
      rw [show t + 1 + bs.length - t = bs.length + 1 from by omega]
      rw [List.drop_succ_cons, List.drop_drop]
      congr 1
      omega
    rw [h1, h2, h3, h4]
    simp

theorem cursorOK_inbounds (st : ImageByteWriter) (hcur : cursorOK st)
    (hlt : st.BitPos < 3 * st.w * st.h) :
    st.currentRGB < 3 ∧ st.currentX < st.w ∧ st.currentY < st.h := by
  rcases hcur with h | ⟨h1, h2, h3 | ⟨h3, h4⟩⟩
  · exact h
  · exfalso
    unfold ImageByteWriter.BitPos at hlt
    rw [h1, h2, h3] at hlt
    have : st.h * st.w * 3 = 3 * st.w * st.h := by ring
    omega
  · exfalso
    have h5 : 3 * st.w * st.h = 3 * (st.w * st.h) := by ring
    omega

theorem increment_spec (ibw : ImageByteWriter)
    (h3 : ibw.currentRGB < 3) (hx : ibw.currentX < ibw.w) (hy : ibw.currentY < ibw.h) :
    ibw.increment.1 = false ∧
      ibw.increment.2.im = ibw.im ∧ ibw.increment.2.w = ibw.w ∧
      ibw.increment.2.h = ibw.h ∧ ibw.increment.2.capacity = ibw.capacity ∧
      ibw.increment.2.currentByte = ibw.currentByte ∧
      ibw.increment.2.BitPos = ibw.BitPos + 1 ∧ cursorOK ibw.increment.2 := by
  unfold ImageByteWriter.increment
  rw [if_neg (by omega)]
  by_cases hr : ibw.currentRGB + 1 > 2
  · rw [if_pos hr]
    by_cases hxe : ibw.currentX + 1 ≥ ibw.w
    · rw [if_pos hxe]
      refine ⟨rfl, rfl, rfl, rfl, rfl, rfl, ?_, ?_⟩
      · show ((ibw.currentY + 1) * ibw.w + 0) * 3 + 0
          = (ibw.currentY * ibw.w + ibw.currentX) * 3 + ibw.currentRGB + 1
        rw [Nat.succ_mul]
        have hx1 : ibw.currentX = ibw.w - 1 := by omega
        have hr2 : ibw.currentRGB = 2 := by omega
        rw [hx1, hr2]
        omega
      · by_cases hyh : ibw.currentY + 1 < ibw.h
        · refine Or.inl ⟨?_, ?_, ?_⟩
          · show (0 : Nat) < 3
            omega
          · show 0 < ibw.w
            omega
          · show ibw.currentY + 1 < ibw.h
            exact hyh
        · refine Or.inr ⟨rfl, rfl, Or.inl ?_⟩
          show ibw.currentY + 1 = ibw.h
          omega
    · rw [if_neg hxe]
      refine ⟨rfl, rfl, rfl, rfl, rfl, rfl, ?_, ?_⟩
      · show (ibw.currentY * ibw.w + (ibw.currentX + 1)) * 3 + 0
          = (ibw.currentY * ibw.w + ibw.currentX) * 3 + ibw.currentRGB + 1
        have hr2 : ibw.currentRGB = 2 := by omega
        rw [hr2]
        omega
      · refine Or.inl ⟨?_, ?_, ?_⟩
        · show (0 : Nat) < 3
          omega
        · show ibw.currentX + 1 < ibw.w
          omega
        · show ibw.currentY < ibw.h
          exact hy
  · rw [if_neg hr]
    refine ⟨rfl, rfl, rfl, rfl, rfl, rfl, ?_, ?_⟩
    · show (ibw.currentY * ibw.w + ibw.currentX) * 3 + (ibw.currentRGB + 1)
        = (ibw.currentY * ibw.w + ibw.currentX) * 3 + ibw.currentRGB + 1
      omega
    · refine Or.inl ⟨?_, ?_, ?_⟩
      · show ibw.currentRGB + 1 < 3
        omega
      · show ibw.currentX < ibw.w
        exact hx
      · show ibw.currentY < ibw.h
        exact hy

theorem SetPix_eq_setLSB (im : Img) (x y rgb : Nat) (bit : Bool)
    (hx : x < im.w) (hy : y < im.h) (hrgb : rgb < 3) :
    im.SetPix x y (colorEmbed (im.At x y) rgb bit)
      = setLSB im ((y * im.w + x) * 3 + rgb) bit := by
  unfold Img.SetPix setLSB Img.At
  rw [if_pos ⟨hx, hy⟩]
  have h3 : ((y * im.w + x) * 3 + rgb) / 3 = y * im.w + x := by omega
  have hm : ((y * im.w + x) * 3 + rgb) % 3 = rgb := by omega
  rw [h3, hm]

theorem foldl_writeByteStep (data : Nat) (l : List Nat) (st : ImageByteWriter)
    (hcw : CurWF st) (hbound : st.BitPos + l.length ≤ 3 * st.w * st.h) :
    ∃ st', l.foldl (writeByteStep data) (none, st) = (none, st') ∧
      st'.im = applyBits st.im st.BitPos (l.map fun i => decide (data &&& (1 <<< i) ≠ 0)) ∧
      st'.w = st.w ∧ st'.h = st.h ∧ st'.capacity = st.capacity ∧
      st'.currentByte = st.currentByte ∧ st'.BitPos = st.BitPos + l.length ∧ CurWF st' := by
  induction l generalizing st with
  | nil =>
    exact ⟨st, rfl, rfl, rfl, rfl, rfl, rfl, by simp, hcw⟩
  | cons i l ih =>
    have hin := cursorOK_inbounds st hcw.hcur (by simp at hbound; omega)
    obtain ⟨hrgb, hx, hy⟩ := hin
    set bit := decide (data &&& (1 <<< i) ≠ 0) with hbit
    set stm : ImageByteWriter := { st with
      im := st.im.SetPix st.currentX st.currentY
        (colorEmbed (st.im.At st.currentX st.currentY) st.currentRGB bit) } with hstm
    have hstep : writeByteStep data (none, st) i
        = (match stm.increment with
           | (true, st'') => (some IOError.unexpectedEOF, st'')
           | (false, st'') => (none, st'')) := rfl
    have himq : stm.im = setLSB st.im st.BitPos bit := by
      rw [hstm]
      show st.im.SetPix st.currentX st.currentY
        (colorEmbed (st.im.At st.currentX st.currentY) st.currentRGB bit)
          = setLSB st.im st.BitPos bit
      rw [SetPix_eq_setLSB st.im st.currentX st.currentY st.currentRGB bit
        (by rw [← hcw.hw]; exact hx) (by rw [← hcw.hh]; exact hy) hrgb]
      congr 1
      unfold ImageByteWriter.BitPos
      rw [hcw.hw]
    have hinc := increment_spec stm hrgb hx hy
    obtain ⟨hfalse, him2, hw2, hh2, hcap2, hcb2, hbp2, hcur2⟩ := hinc
    have hpair : stm.increment = (false, stm.increment.2) := by
      have hp : stm.increment = (stm.increment.1, stm.increment.2) := rfl
      rw [hp, hfalse]
    rw [hpair] at hstep
    have hbps : stm.BitPos = st.BitPos := rfl
    have hcw2 : CurWF stm.increment.2 := by
      refine ⟨?_, ?_, ?_, hcur2⟩
      · rw [hw2, him2, himq]
        rw [(setLSB_wh st.im st.BitPos bit).1]
        exact hcw.hw
      · rw [hh2, him2, himq]
        rw [(setLSB_wh st.im st.BitPos bit).2]
        exact hcw.hh
      · rw [him2, himq]
        rw [setLSB_pix_length]
        rcases setLSB_wh st.im st.BitPos bit with ⟨hsw, hsh⟩
        rw [hsw, hsh]
        exact hcw.hpix
    have hb2 : stm.increment.2.BitPos + l.length ≤ 3 * stm.increment.2.w * stm.increment.2.h := by
      have hsw : stm.w = st.w := rfl
      have hsh : stm.h = st.h := rfl
      rw [hbp2, hbps, hw2, hh2, hsw, hsh]
      simp only [List.length_cons] at hbound
      omega
    obtain ⟨st', hfold, him', hw', hh', hcap', hcb', hbp', hcw'⟩ := ih stm.increment.2 hcw2 hb2
    refine ⟨st', ?_, ?_, ?_, ?_, ?_, ?_, ?_, hcw'⟩
    · rw [List.foldl_cons, hstep]
      exact hfold
    · rw [him', him2, himq, List.map_cons]
      rw [applyBits]
      congr 1
    · rw [hw', hw2]
    · rw [hh', hh2]
    · rw [hcap', hcap2]
    · rw [hcb', hcb2]
    · rw [hbp', hbp2, hbps]
      simp
      omega

theorem writeByte_run (ibw : ImageByteWriter) (data : Nat) (hwf : WFW ibw)
    (hlt : ibw.currentByte < ibw.capacity) :
    ∃ st, ibw.writeByte data = (none, st) ∧
      st.im = applyBits ibw.im (8 * ibw.currentByte) (bits8 data) ∧
      st.w = ibw.w ∧ st.h = ibw.h ∧ st.capacity = ibw.capacity ∧
      st.currentByte = ibw.currentByte ∧
      st.BitPos = 8 * ibw.currentByte + 8 ∧ CurWF st := by
  have hcw : CurWF ibw := ⟨hwf.hw, hwf.hh, hwf.hpix, hwf.hcur⟩
  have hbound : ibw.BitPos + (List.range 8).length ≤ 3 * ibw.w * ibw.h := by
    rw [hwf.hpos, List.length_range]
    have hcap := hwf.hcap
    have h8 : 8 * (ibw.w * ibw.h * 3 / 8) ≤ ibw.w * ibw.h * 3 := by omega
    have h3 : ibw.w * ibw.h * 3 = 3 * ibw.w * ibw.h := by ring
    omega
  obtain ⟨st, hfold, him, hw, hh, hcap, hcb, hbp, hcw'⟩ :=
    foldl_writeByteStep data (List.range 8) ibw hcw hbound
  refine ⟨st, ?_, ?_, hw, hh, hcap, hcb, ?_, hcw'⟩
  · unfold ImageByteWriter.writeByte
    rw [if_neg (by omega)]
    exact hfold
  · rw [him, hwf.hpos]
    rfl
  · rw [hbp, hwf.hpos, List.length_range]

theorem writeList_run (data : List Nat) (ibw : ImageByteWriter) (i0 : Nat) (hwf : WFW ibw)
    (hfit : ibw.currentByte + data.length ≤ ibw.capacity) :
    ∃ st, ibw.writeList i0 data = (none, st) ∧
      st.im = applyBits ibw.im (8 * ibw.currentByte) (bitsOfBytes data) ∧
      st.w = ibw.w ∧ st.h = ibw.h ∧ st.capacity = ibw.capacity ∧
      st.currentByte = ibw.currentByte + data.length ∧ WFW st := by
  induction data generalizing ibw i0 with
  | nil =>
    exact ⟨ibw, rfl, by simp [bitsOfBytes, applyBits], rfl, rfl, rfl, by simp, hwf⟩
  | cons b bs ih =>
    obtain ⟨st1, hwb, him1, hw1, hh1, hcap1, hcb1, hbp1, hcw1⟩ :=
      writeByte_run ibw b hwf (by simp at hfit; omega)
    set st2 : ImageByteWriter := { st1 with currentByte := st1.currentByte + 1 } with hst2
    have hdim1 : st1.im.w = ibw.im.w ∧ st1.im.h = ibw.im.h := by
      rw [him1]
      exact applyBits_wh _ _ _
    have hpl1 : st1.im.pix.length = ibw.im.pix.length := by
      rw [him1]
      exact applyBits_pix_length _ _ _
    have hwf2 : WFW st2 := by
      refine ⟨?_, ?_, ?_, ?_, ?_, ?_, ?_⟩
      · show st1.w = st1.im.w
        rw [hw1, hdim1.1, hwf.hw]
      · show st1.h = st1.im.h
        rw [hh1, hdim1.2, hwf.hh]
      · show st1.im.pix.length = st1.im.w * st1.im.h
        rw [hpl1, hdim1.1, hdim1.2]
        exact hwf.hpix
      · show st1.capacity = st1.w * st1.h * 3 / 8
        rw [hcap1, hw1, hh1]
        exact hwf.hcap
      · show cursorOK st2
        rcases hcw1.hcur with hc | hc
        · exact Or.inl hc
        · exact Or.inr hc
      · show st2.BitPos = 8 * st2.currentByte
        have hbb : st2.BitPos = st1.BitPos := rfl
        have hcc : st2.currentByte = st1.currentByte + 1 := rfl
        rw [hbb, hcc, hbp1, hcb1]
        omega
      · show st2.currentByte ≤ st2.capacity
        have hcc : st2.currentByte = st1.currentByte + 1 := rfl
        have hk : st2.capacity = st1.capacity := rfl
        rw [hcc, hk, hcb1, hcap1]
        simp at hfit
        omega
    have hfit2 : st2.currentByte + bs.length ≤ st2.capacity := by
      have hcc : st2.currentByte = st1.currentByte + 1 := rfl
      have hk : st2.capacity = st1.capacity := rfl
      rw [hcc, hk, hcb1, hcap1]
      simp at hfit
      omega
    obtain ⟨st', hrest, him', hw', hh', hcap', hcb', hwf'⟩ := ih st2 (i0 + 1) hwf2 hfit2
    have hw2 : st2.w = st1.w := rfl
    have hh2 : st2.h = st1.h := rfl
    have hk2 : st2.capacity = st1.capacity := rfl
    have hc2 : st2.currentByte = st1.currentByte + 1 := rfl
    have hi2 : st2.im = st1.im := rfl
    refine ⟨st', ?_, ?_, ?_, ?_, ?_, ?_, hwf'⟩
    · show ImageByteWriter.writeList ibw i0 (b :: bs) = (none, st')
      rw [ImageByteWriter.writeList, hwb]
      exact hrest
    · rw [him', hi2, him1, hc2, hcb1]
      have happ : 8 * (ibw.currentByte + 1) = 8 * ibw.currentByte + (bits8 b).length := by
        rw [bits8_length]
        omega
      rw [happ, ← applyBits_append]
      rfl
    · rw [hw', hw2, hw1]
    · rw [hh', hh2, hh1]
    · rw [hcap', hk2, hcap1]
    · rw [hcb', hc2, hcb1]
      simp
      omega

theorem WFW_new (im : Img) (hpix : im.pix.length = im.w * im.h) :
    WFW (NewImageByteWriter im) := by
  refine ⟨rfl, rfl, hpix, rfl, ?_, ?_, ?_⟩
  · by_cases hwh : 0 < im.w ∧ 0 < im.h
    · refine Or.inl ⟨?_, ?_, ?_⟩
      · show (0 : Nat) < 3
        omega
      · show 0 < im.w
        exact hwh.1
      · show 0 < im.h
        exact hwh.2
    · refine Or.inr ⟨rfl, rfl, ?_⟩
      by_cases hh0 : im.h = 0
      · refine Or.inl ?_
        show (0 : Nat) = im.h
        omega
      · refine Or.inr ⟨rfl, ?_⟩
        show im.w * im.h = 0
        have hw0 : im.w = 0 := by
          by_contra hc
          exact hwh ⟨by omega, by omega⟩
        rw [hw0]
        simp
  · show (0 * im.w + 0) * 3 + 0 = 8 * 0
    simp
  · show (0 : Nat) ≤ im.w * im.h * 3 / 8
    exact Nat.zero_le _

theorem Write_run (ibw : ImageByteWriter) (data : List Nat) (hwf : WFW ibw) :
    ∃ st, ibw.Write data
        = ((min data.length (ibw.capacity - ibw.currentByte),
            if ibw.capacity - ibw.currentByte < data.length then some IOError.eof
            else none), st) ∧
      st.im = applyBits ibw.im (8 * ibw.currentByte)
        (bitsOfBytes (data.take (ibw.capacity - ibw.currentByte))) ∧
      st.w = ibw.w ∧ st.h = ibw.h ∧ st.capacity = ibw.capacity ∧
      st.currentByte = ibw.currentByte + min data.length (ibw.capacity - ibw.currentByte) ∧
      WFW st := by
  by_cases htr : ibw.capacity - ibw.currentByte < data.length
  · obtain ⟨st, hrun, him, hw, hh, hcap, hcb, hwf'⟩ :=
      writeList_run (data.take (ibw.capacity - ibw.currentByte)) ibw 0 hwf
        (by rw [List.length_take]; have := hwf.hcb; omega)
    refine ⟨st, ?_, him, hw, hh, hcap, ?_, hwf'⟩
    · unfold ImageByteWriter.Write
      rw [if_pos htr, hrun, if_pos htr, List.length_take]
      have hmin : min (ibw.capacity - ibw.currentByte) data.length
          = min data.length (ibw.capacity - ibw.currentByte) := Nat.min_comm _ _
      rw [hmin]
    · rw [hcb, List.length_take]
      omega
  · obtain ⟨st, hrun, him, hw, hh, hcap, hcb, hwf'⟩ :=
      writeList_run data ibw 0 hwf (by have := hwf.hcb; omega)
    have htake : data.take (ibw.capacity - ibw.currentByte) = data :=
      List.take_of_length_le (by omega)
    refine ⟨st, ?_, ?_, hw, hh, hcap, ?_, hwf'⟩
    · unfold ImageByteWriter.Write
      rw [if_neg htr, hrun, if_neg htr]
      have hmin : data.length = min data.length (ibw.capacity - ibw.currentByte) := by
        omega
      rw [← hmin]
    · rw [him, htake]
    · rw [hcb]
      congr 1
      omega

/-- Writing a full-capacity byte string into a fresh carrier and
re-extracting the hidden bytes returns exactly that byte string. -/
theorem extract_after_write (im : Img) (data : List Nat)
    (hpix : im.pix.length = im.w * im.h)
    (hlen : data.length = im.w * im.h * 3 / 8) (hbytes : ∀ x ∈ data, x < 256) :
    GetHiddenBytesFromImage ((NewImageByteWriter im).Write data).2.im = data := by
  obtain ⟨st, hrun, him, hw, hh, hcap, hcb, hwf'⟩ :=
    Write_run (NewImageByteWriter im) data (WFW_new im hpix)
  have hsnd : ((NewImageByteWriter im).Write data).2 = st := by
    rw [hrun]
  rw [hsnd]
  have hcap0 : (NewImageByteWriter im).capacity = im.w * im.h * 3 / 8 := rfl
  have hcb0 : (NewImageByteWriter im).currentByte = 0 := rfl
  have him0 : (NewImageByteWriter im).im = im := rfl
  rw [hcap0, hcb0, him0] at him
  have htake : data.take (im.w * im.h * 3 / 8 - 0) = data :=
    List.take_of_length_le (by omega)
  rw [htake] at him
  have hdim : st.im.w = im.w ∧ st.im.h = im.h := by
    rw [him]
    exact applyBits_wh _ _ _
  have hpl : st.im.pix.length = im.pix.length := by
    rw [him]
    exact applyBits_pix_length _ _ _
  have hwfs : st.im.pix.length = st.im.w * st.im.h := by
    rw [hpl, hdim.1, hdim.2, hpix]
  rw [getHiddenBytes_eq_accBytes, travBits_eq_lsbStream _ hwfs]
  have hstream : lsbStream st.im = bitsOfBytes data ++ (lsbStream im).drop (8 * data.length) := by
    rw [him]
    have h80 : (8 : Nat) * 0 = 0 := rfl
    rw [h80]
    have h1 := applyBits_stream (bitsOfBytes data) im 0
      (by rw [bitsOfBytes_length, hpix, hlen]; omega)
    simp only [Nat.zero_add, List.take_zero, List.nil_append] at h1
    rw [h1, bitsOfBytes_length]
  rw [hstream]
  refine accBytes_bitsOfBytes data _ hbytes ?_
  rw [List.length_drop, lsbStream_length, hpix, hlen]
  omega

theorem length_swapL {α : Type} [Inhabited α] (l : List α) (i j : Nat) :
    (swapL l i j).length = l.length := by
  simp [swapL]

theorem getD_set_self {α : Type} (l : List α) (i : Nat) (a d : α) (h : i < l.length) :
    (l.set i a).getD i d = a := by
  simp [List.getD_eq_getElem?_getD, List.getElem?_set_self h]

theorem getD_set_ne {α : Type} (l : List α) (i j : Nat) (a d : α) (h : i ≠ j) :
    (l.set i a).getD j d = l.getD j d := by
  simp [List.getD_eq_getElem?_getD, List.getElem?_set_ne h]

theorem getD_irrel {α : Type} (l : List α) (i : Nat) (d1 d2 : α) (h : i < l.length) :
    l.getD i d1 = l.getD i d2 := by
  rw [List.getD_eq_getElem?_getD, List.getD_eq_getElem?_getD, List.getElem?_eq_getElem h]
  rfl

theorem getD_swapL {α : Type} [Inhabited α] (l : List α) (i j k : Nat) (d : α)
    (hi : i < l.length) (hj : j < l.length) :
    (swapL l i j).getD k d = l.getD (swapIdx i j k) d := by
  unfold swapL swapIdx
  by_cases hkj : k = j
  · subst hkj
    rw [if_pos rfl, getD_set_self _ _ _ _ (by simpa using hj)]
    exact getD_irrel l i default d hi
  · rw [if_neg hkj, getD_set_ne _ _ _ _ _ (fun h => hkj h.symm)]
    by_cases hki : k = i
    · subst hki
      rw [if_pos rfl, getD_set_self _ _ _ _ hi]
      exact getD_irrel l j default d hj
    · rw [if_neg hki, getD_set_ne _ _ _ _ _ (fun h => hki h.symm)]

theorem swapIdx_lt (i j k n : Nat) (hi : i < n) (hj : j < n) (hk : k < n) :
    swapIdx i j k < n := by
  unfold swapIdx
  split_ifs <;> omega

theorem swapIdx_inj (i j k1 k2 : Nat) (h : swapIdx i j k1 = swapIdx i j k2) : k1 = k2 := by
  unfold swapIdx at h
  split_ifs at h <;> omega

theorem fyDown_eq_applySwaps {α : Type} [Inhabited α] (d : Nat → Nat) (i : Nat) (l : List α) :
    fyDown d i l = applySwaps (downSwaps d i) l := by
  induction i generalizing l with
  | zero => rfl
  | succ i ih => rw [fyDown, downSwaps, applySwaps, List.foldl_cons, ih]; rfl

theorem length_applySwaps {α : Type} [Inhabited α] (sw : List (Nat × Nat)) (l : List α) :
    (applySwaps sw l).length = l.length := by
  induction sw generalizing l with
  | nil => rfl
  | cons p sw ih => rw [applySwaps, List.foldl_cons]; exact (ih _).trans (length_swapL _ _ _)

theorem applySwaps_append {α : Type} [Inhabited α] (s1 s2 : List (Nat × Nat)) (l : List α) :
    applySwaps (s1 ++ s2) l = applySwaps s2 (applySwaps s1 l) := by
  unfold applySwaps
  rw [List.foldl_append]

theorem downSwaps_mem (d : Nat → Nat) (i : Nat) (p : Nat × Nat) (hp : p ∈ downSwaps d i) :
    1 ≤ p.1 ∧ p.1 ≤ i ∧ p.2 = d p.1 := by
  induction i with
  | zero => simp [downSwaps] at hp
  | succ i ih =>
    rw [downSwaps] at hp
    rcases List.mem_cons.mp hp with rfl | hp'
    · exact ⟨by omega, by omega, rfl⟩
    · obtain ⟨h1, h2, h3⟩ := ih hp'
      exact ⟨h1, by omega, h3⟩

theorem getD_range (n k : Nat) (hk : k < n) : (List.range n).getD k 0 = k := by
  rw [List.getD_eq_getElem?_getD, List.getElem?_range hk]
  rfl

theorem swapRel_swap {α : Type} [Inhabited α] (orig l : List α) (x : List Nat) (n i j : Nat)
    (h : SwapRel orig l x n) (hi : i < n) (hj : j < n) :
    SwapRel orig (swapL l i j) (swapL x i j) n := by
  obtain ⟨hl, hx, hb, hinj, hrel⟩ := h
  have hil : i < l.length := by omega
  have hjl : j < l.length := by omega
  have hix : i < x.length := by omega
  have hjx : j < x.length := by omega
  refine ⟨(length_swapL _ _ _).trans hl, (length_swapL _ _ _).trans hx, ?_, ?_, ?_⟩
  · intro k hk
    rw [getD_swapL x i j k 0 hix hjx]
    exact hb _ (swapIdx_lt i j k n hi hj hk)
  · intro k1 k2 hk1 hk2 hne
    rw [getD_swapL x i j k1 0 hix hjx, getD_swapL x i j k2 0 hix hjx]
    exact hinj _ _ (swapIdx_lt i j k1 n hi hj hk1) (swapIdx_lt i j k2 n hi hj hk2)
      (fun hc => hne (swapIdx_inj i j k1 k2 hc))
  · intro k hk
    rw [getD_swapL l i j k default hil hjl, getD_swapL x i j k 0 hix hjx]
    exact hrel _ (swapIdx_lt i j k n hi hj hk)

theorem applySwaps_rel {α : Type} [Inhabited α] (sw : List (Nat × Nat)) (orig l : List α)
    (x : List Nat) (n : Nat) (h : SwapRel orig l x n)
    (hsw : ∀ p ∈ sw, p.1 < n ∧ p.2 < n) :
    SwapRel orig (applySwaps sw l) (applySwaps sw x) n := by
  induction sw generalizing l x with
  | nil => exact h
  | cons p sw ih =>
    rw [applySwaps, List.foldl_cons, applySwaps, List.foldl_cons]
    have hp := hsw p (by simp)
    exact ih _ _ (swapRel_swap orig l x n p.1 p.2 h hp.1 hp.2)
      (fun q hq => hsw q (by simp [hq]))

theorem swapRel_base {α : Type} [Inhabited α] (orig : List α) (n : Nat)
    (hn : orig.length = n) : SwapRel orig orig (List.range n) n := by
  refine ⟨hn, List.length_range n, ?_, ?_, ?_⟩
  · intro k hk
    rw [getD_range n k hk]
    exact hk
  · intro k1 k2 hk1 hk2 hne
    rw [getD_range n k1 hk1, getD_range n k2 hk2]
    exact hne
  · intro k hk
    rw [getD_range n k hk]

theorem unfixedCount_le (x : List Nat) (n : Nat) : unfixedCount x n ≤ n := by
  calc ((Finset.range n).filter (fun k => x.getD k 0 ≠ k)).card
      ≤ (Finset.range n).card := Finset.card_filter_le _ _
    _ = n := Finset.card_range n

theorem unfixedCount_swap_lt (x : List Nat) (n i o : Nat) (hi : i < n) (ho : o < n)
    (hxn : x.length = n)
    (hxi : x.getD i 0 = o) (hio : o ≠ i) (hxo : x.getD o 0 ≠ o) :
    unfixedCount (swapL x i o) n < unfixedCount x n := by
  have hix : i < x.length := by omega
  have hox : o < x.length := by omega
  apply Finset.card_lt_card
  rw [Finset.ssubset_iff_of_subset]
  · refine ⟨o, ?_, ?_⟩
    · rw [Finset.mem_filter, Finset.mem_range]
      exact ⟨ho, hxo⟩
    · rw [Finset.mem_filter]
      rintro ⟨_, hc⟩
      apply hc
      rw [getD_swapL x i o o 0 hix hox]
      unfold swapIdx
      rw [if_pos rfl]
      exact hxi
  · intro k hk
    rw [Finset.mem_filter, Finset.mem_range] at hk ⊢
    obtain ⟨hkn, hkne⟩ := hk
    refine ⟨hkn, ?_⟩
    rw [getD_swapL x i o k 0 hix hox] at hkne
    unfold swapIdx at hkne
    by_cases hko : k = o
    · subst hko
      rw [if_pos rfl] at hkne
      exact absurd hxi hkne
    · rw [if_neg hko] at hkne
      by_cases hki : k = i
      · subst hki
        rw [hxi]
        exact hio
      · rwa [if_neg hki] at hkne

theorem cycleWalk_spec {α : Type} [Inhabited α] (orig : List α) (n : Nat) :
    ∀ (fuel : Nat) (l : List α) (x : List Nat) (i : Nat),
    SwapRel orig l x n → i < n → unfixedCount x n ≤ fuel →
    SwapRel orig (cycleWalk l x i fuel).1 (cycleWalk l x i fuel).2 n ∧
      (cycleWalk l x i fuel).2.getD i 0 = i ∧
      (∀ k, k < n → x.getD k 0 = k → (cycleWalk l x i fuel).2.getD k 0 = k) := by
  intro fuel
  induction fuel with
  | zero =>
    intro l x i hrel hi hcnt
    have hz : unfixedCount x n = 0 := by omega
    have hfix : x.getD i 0 = i := by
      by_contra hc
      have hmem : i ∈ (Finset.range n).filter (fun k => x.getD k 0 ≠ k) := by
        rw [Finset.mem_filter, Finset.mem_range]
        exact ⟨hi, hc⟩
      have := Finset.card_pos.mpr ⟨i, hmem⟩
      unfold unfixedCount at hz
      omega
    exact ⟨hrel, hfix, fun k _ h => h⟩
  | succ fuel ih =>
    intro l x i hrel hi hcnt
    by_cases ho : x.getD i 0 = i
    · rw [cycleWalk]
      simp only [ho, if_pos rfl]
      exact ⟨hrel, ho, fun k _ h => h⟩
    · obtain ⟨hl, hx, hb, hinj, hrelk⟩ := hrel
      set o := x.getD i 0 with hodef
      have hon : o < n := hb i hi
      have hoi : o ≠ i := ho
      have hxo : x.getD o 0 ≠ o := by
        intro hc
        have h2 := hinj i o hi hon (fun hc2 => hoi hc2.symm)
        rw [← hodef, hc] at h2
        exact h2 rfl
      have hrel2 : SwapRel orig (swapL l i o) (swapL x i o) n :=
        swapRel_swap orig l x n i o ⟨hl, hx, hb, hinj, hrelk⟩ hi hon
      have hcnt2 : unfixedCount (swapL x i o) n < unfixedCount x n :=
        unfixedCount_swap_lt x n i o hi hon hx rfl hoi hxo
      have hstep : cycleWalk l x i (fuel + 1) = cycleWalk (swapL l i o) (swapL x i o) i fuel := by
        rw [cycleWalk]
        simp only [← hodef, if_neg ho]
      rw [hstep]
      obtain ⟨hrel', hfix', hpres'⟩ := ih (swapL l i o) (swapL x i o) i hrel2 hi (by omega)
      refine ⟨hrel', hfix', ?_⟩
      intro k hk hxk
      apply hpres' k hk
      have hix : i < x.length := by omega
      have hox : o < x.length := by omega
      rw [getD_swapL x i o k 0 hix hox]
      unfold swapIdx
      have hko : k ≠ o := fun hc => hxo (by rw [← hc]; exact hxk)
      have hki : k ≠ i := fun hc => ho (by rw [hodef, ← hc]; exact hxk)
      rw [if_neg hko, if_neg hki]
      exact hxk

theorem unshuffleOuter_spec {α : Type} [Inhabited α] (orig : List α) (n : Nat) :
    ∀ (todo start : Nat) (l : List α) (x : List Nat),
    start + todo = n →
    SwapRel orig l x n →
    (∀ k, k < start → x.getD k 0 = k) →
    SwapRel orig (unshuffleOuter l x start todo).1 (unshuffleOuter l x start todo).2 n ∧
      (∀ k, k < n → (unshuffleOuter l x start todo).2.getD k 0 = k) := by
  intro todo
  induction todo with
  | zero =>
    intro start l x hst hrel hfix
    exact ⟨hrel, fun k hk => hfix k (by omega)⟩
  | succ todo ih =>
    intro start l x hst hrel hfix
    have hstart : start < n := by omega
    have hxlen : x.length = n := hrel.2.1
    obtain ⟨hrel1, hfix1, hpres1⟩ := cycleWalk_spec orig n (x.length + 1) l x start hrel hstart
      (by have := unfixedCount_le x n; omega)
    have hfix2 : ∀ k, k < start + 1 → (cycleWalk l x start (x.length + 1)).2.getD k 0 = k := by
      intro k hk
      by_cases hks : k = start
      · subst hks
        exact hfix1
      · exact hpres1 k (by omega) (hfix k (by omega))
    obtain ⟨hrel', hall'⟩ := ih (start + 1)
      (cycleWalk l x start (x.length + 1)).1 (cycleWalk l x start (x.length + 1)).2
      (by omega) hrel1 hfix2
    exact ⟨hrel', hall'⟩

theorem list_ext_getD {α : Type} [Inhabited α] (l1 l2 : List α) (hlen : l1.length = l2.length)
    (h : ∀ k, k < l1.length → l1.getD k default = l2.getD k default) : l1 = l2 := by
  apply List.ext_getElem hlen
  intro k h1 h2
  have hk := h k h1
  rwa [List.getD_eq_getElem?_getD, List.getD_eq_getElem?_getD,
    List.getElem?_eq_getElem h1, List.getElem?_eq_getElem h2] at hk

theorem length_rShuffle {α : Type} [Inhabited α] (d : Nat → Nat) (n : Nat) (l : List α) :
    (rShuffle d n l).length = l.length := by
  rw [rShuffle, fyDown_eq_applySwaps, length_applySwaps]

theorem shuffleFold_eq {α : Type} [Inhabited α] (E : Ext) (s : List Nat) (is : List Nat)
    (l : List α) :
    is.foldl (fun acc i => rShuffle (E.gdraw (seedAt E s i) acc.length) acc.length acc) l
      = applySwaps (roundsSwapsAux E s l.length is) l := by
  induction is generalizing l with
  | nil => rfl
  | cons i is ih =>
    rw [List.foldl_cons, roundsSwapsAux, applySwaps_append]
    have h1 : rShuffle (E.gdraw (seedAt E s i) l.length) l.length l
        = applySwaps (downSwaps (E.gdraw (seedAt E s i) l.length) (l.length - 1)) l :=
      fyDown_eq_applySwaps _ _ _
    rw [ih (rShuffle (E.gdraw (seedAt E s i) l.length) l.length l), length_rShuffle, h1]

theorem shuffle4_eq {α : Type} [Inhabited α] (E : Ext) (s : List Nat) (l : List α) :
    shuffle4 E s l = applySwaps (roundsSwapsAux E s l.length (List.range 4)) l :=
  shuffleFold_eq E s (List.range 4) l

theorem decodeReplayIdx_eq (E : Ext) (s : List Nat) (n : Nat) :
    decodeReplayIdx E s n = applySwaps (roundsSwapsAux E s n (List.range 4)) (List.range n) := by
  have h := shuffleFold_eq E s (List.range 4) (List.range n)
  rw [List.length_range] at h
  exact h

theorem roundsSwapsAux_mem (E : Ext) (s : List Nat) (n : Nat) (is : List Nat)
    (hg : ∀ sd j, E.gdraw sd n j ≤ j) :
    ∀ p ∈ roundsSwapsAux E s n is, p.1 < n ∧ p.2 < n := by
  induction is with
  | nil => intro p hp; simp [roundsSwapsAux] at hp
  | cons i is ih =>
    intro p hp
    rw [roundsSwapsAux] at hp
    rcases List.mem_append.mp hp with hp1 | hp2
    · obtain ⟨h1, h2, h3⟩ := downSwaps_mem _ _ p hp1
      have hlt : p.1 < n := by omega
      have hd : p.2 ≤ p.1 := by rw [h3]; exact hg _ _
      exact ⟨hlt, by omega⟩
    · exact ih p hp2

/-- After the encoder's 4-round shuffle of data and the decoder's replay
of the same rounds on an identity index array, position `k` of the
shuffled data holds the original element from position `idx[k]`, and
`idx` is a bounded, injective index map. -/
theorem shuffleRel_main (E : Ext) (s : List Nat) (B : List Nat)
    (hg : ∀ sd n j, E.gdraw sd n j ≤ j) :
    SwapRel B (shuffle4 E s B) (decodeReplayIdx E s B.length) B.length := by
  rw [shuffle4_eq, decodeReplayIdx_eq]
  exact applySwaps_rel _ B B (List.range B.length) B.length
    (swapRel_base B B.length rfl)
    (roundsSwapsAux_mem E s B.length (List.range 4) (fun sd j => hg sd B.length j))

/-- Cycle-following inversion of the 4-round shuffle: the decoder's
unshuffle stage applied to the encoder's shuffled buffer restores the
buffer exactly. -/
theorem unshuffle_shuffle (E : Ext) (s : List Nat) (B : List Nat)
    (hg : ∀ sd n j, E.gdraw sd n j ≤ j) :
    decodeUnshuffle E s (shuffle4 E s B) = B := by
  have hlen : (shuffle4 E s B).length = B.length := by
    rw [shuffle4_eq, length_applySwaps]
  unfold decodeUnshuffle
  rw [hlen]
  have hrel := shuffleRel_main E s B hg
  obtain ⟨hrelF, hallF⟩ := unshuffleOuter_spec B B.length B.length 0
    (shuffle4 E s B) (decodeReplayIdx E s B.length) (by omega) hrel
    (by intro k hk; omega)
  obtain ⟨hl, hx, hb2, hinj2, hrelk⟩ := hrelF
  refine list_ext_getD _ _ (by rw [hl]) ?_
  intro k hk
  rw [hl] at hk
  rw [hrelk k hk, hallF k hk]

theorem getHiddenBytes_length (im : Img) :
    (GetHiddenBytesFromImage im).length = im.w * im.h * 3 / 8 := by
  rw [getHiddenBytes_eq_accBytes, accBytes_length _ _ _ (by omega), travBits_length]
  omega

theorem getHiddenBytes_lt (im : Img) : ∀ x ∈ GetHiddenBytesFromImage im, x < 256 := by
  rw [getHiddenBytes_eq_accBytes]
  exact accBytes_lt _ 0 0 (by omega) (by omega)

theorem getD_eq_getElem' {α : Type} (l : List α) (d : α) (k : Nat) (h : k < l.length) :
    l.getD k d = l.get ⟨k, h⟩ := by
  rw [List.getD_eq_getElem?_getD, List.getElem?_eq_getElem h]
  rfl

theorem shuffle4_bound (E : Ext) (s : List Nat) (l : List Nat)
    (hg : ∀ sd n j, E.gdraw sd n j ≤ j) (h : ∀ b ∈ l, b < 256) :
    ∀ b ∈ shuffle4 E s l, b < 256 := by
  intro b hb
  obtain ⟨hl, hx, hbnd, hinj, hrelk⟩ := shuffleRel_main E s l hg
  obtain ⟨k, hk, hbk⟩ := List.mem_iff_getElem.mp hb
  have hkl : k < l.length := by omega
  have h1 : (shuffle4 E s l).getD k 0 = b := by
    rw [getD_eq_getElem' _ _ _ hk]
    exact hbk
  have h2 := hrelk k hkl
  have h3 : (l.getD ((decodeReplayIdx E s l.length).getD k 0) default) = b := by
    rw [← h2]
    exact h1
  have h4 : (decodeReplayIdx E s l.length).getD k 0 < l.length := hbnd k hkl
  rw [getD_eq_getElem' _ _ _ h4] at h3
  rw [← h3]
  exact h (l.get ⟨_, h4⟩) (l.get_mem _ _)

theorem putUint32_lt (v : Nat) : ∀ b ∈ putUint32 v, b < 256 := by
  intro b hb
  unfold putUint32 at hb
  rcases List.mem_cons.mp hb with h | hb
  · omega
  rcases List.mem_cons.mp hb with h | hb
  · omega
  rcases List.mem_cons.mp hb with h | hb
  · omega
  rcases List.mem_cons.mp hb with h | hb
  · omega
  · simp at hb

theorem putUint32_length (v : Nat) : (putUint32 v).length = 4 := rfl

theorem beUint32_putUint32 (v : Nat) : beUint32 (putUint32 v) = v % 2 ^ 32 := by
  unfold beUint32 putUint32
  simp only [List.foldl_cons, List.foldl_nil]
  omega

/-- Field projections of a plain envelope `payload ++ middle ++ length
field ++ tail`. -/
theorem env_fields (D M P T : List Nat) (cap : Nat)
    (hD : D.length + 36 ≤ cap) (hM : M.length = cap - 36 - D.length)
    (hP : P.length = 4) (hT : T.length = 32) :
    (D ++ (M ++ (P ++ T))).length = cap ∧
      (D ++ (M ++ (P ++ T))).take D.length = D ∧
      (D ++ (M ++ (P ++ T))).drop (cap - 36) = P ++ T ∧
      ((D ++ (M ++ (P ++ T))).drop (cap - 36)).take 4 = P ∧
      (D ++ (M ++ (P ++ T))).drop (cap - 32) = T ∧
      (D ++ (M ++ (P ++ T))).take (cap - 32) = (D ++ M) ++ P := by
  have hassoc1 : D ++ (M ++ (P ++ T)) = (D ++ M) ++ (P ++ T) := by
    rw [List.append_assoc]
  have hassoc2 : D ++ (M ++ (P ++ T)) = ((D ++ M) ++ P) ++ T := by
    rw [List.append_assoc, List.append_assoc]
  have hDM : (D ++ M).length = cap - 36 := by
    rw [List.length_append, hM]
    omega
  have hDMP : ((D ++ M) ++ P).length = cap - 32 := by
    rw [List.length_append, hDM, hP]
    omega
  refine ⟨?_, ?_, ?_, ?_, ?_, ?_⟩
  · rw [hassoc2, List.length_append, List.length_append, hDM, hP, hT]
    omega
  · exact List.take_left D (M ++ (P ++ T))
  · rw [hassoc1]
    exact List.drop_left' hDM
  · rw [hassoc1, List.drop_left' hDM]
    exact List.take_left' hP
  · rw [hassoc2]
    exact List.drop_left' hDMP
  · rw [hassoc2]
    exact List.take_left' hDMP

/-- The length-field write of the envelope build, re-expressed as an
explicit concatenation of the payload, the untouched middle carrier
bytes, the 4-byte length and the old tail bytes. -/
theorem env_regions (D H : List Nat) (cap : Nat) (hH : H.length = cap)
    (hfit : D.length + 36 ≤ cap) :
    (D ++ H.drop D.length).take ((D ++ H.drop D.length).length - HASH_SIZE - FSIZE_LEN)
        ++ putUint32 D.length
        ++ (D ++ H.drop D.length).drop
          ((D ++ H.drop D.length).length - HASH_SIZE - FSIZE_LEN + FSIZE_LEN)
      = D ++ ((H.drop D.length).take (cap - 36 - D.length)
        ++ (putUint32 D.length ++ H.drop (cap - 32))) := by
  have hlen1 : (D ++ H.drop D.length).length = cap := by
    rw [List.length_append, List.length_drop]
    omega
  rw [hlen1]
  have h36 : cap - HASH_SIZE - FSIZE_LEN = cap - 36 := by
    simp only [HASH_SIZE, FSIZE_LEN]
    omega
  rw [h36]
  have h364 : cap - 36 + FSIZE_LEN = cap - 36 + 4 := by
    simp only [FSIZE_LEN]
  rw [h364]
  have hsplit : H.drop D.length
      = (H.drop D.length).take (cap - 36 - D.length) ++ H.drop (cap - 36) := by
    have h1 := List.take_append_drop (cap - 36 - D.length) (H.drop D.length)
    rw [List.drop_drop] at h1
    rw [show D.length + (cap - 36 - D.length) = cap - 36 from by omega] at h1
    exact h1.symm
  have hlenDM : (D ++ (H.drop D.length).take (cap - 36 - D.length)).length = cap - 36 := by
    rw [List.length_append, List.length_take, List.length_drop]
    omega
  have hexp : D ++ H.drop D.length
      = (D ++ (H.drop D.length).take (cap - 36 - D.length)) ++ H.drop (cap - 36) := by
    conv_lhs => rw [hsplit]
    rw [List.append_assoc]
  rw [hexp, List.take_left' hlenDM]
  have hdrop : ((D ++ (H.drop D.length).take (cap - 36 - D.length)) ++ H.drop (cap - 36)).drop
      (cap - 36 + 4) = H.drop (cap - 32) := by
    rw [show cap - 36 + 4
        = (D ++ (H.drop D.length).take (cap - 36 - D.length)).length + 4 from by
      rw [hlenDM]]
    rw [List.drop_append]
    rw [List.drop_drop]
    rw [show cap - 36 + 4 = cap - 32 from by omega]
  rw [hdrop]
  simp [List.append_assoc]

/-- Success-path characterization of `envelopePrep`: under the size and
capacity checks, the built envelope is the payload, the untouched middle
of the carrier, the 4-byte big-endian payload length at `capacity - 36`,
and — at `capacity - 32` — the payload hash when hashing is enabled or
the carrier-inherited bytes when it is disabled. -/
theorem envelopePrep_repr (E : Ext) (p : Prog) (im : Img) (data : List Nat)
    (hsz32 : data.length ≤ 2 ^ 32 - 1)
    (hreq : (if p.keyFile ≠ [] then data.length + E.gcmOverhead + RSA_SIZE
        else data.length + HASH_SIZE + FSIZE_LEN) ≤ im.w * im.h * 3 / 8) :
    envelopePrep E p im data = .ok (data
      ++ (((GetHiddenBytesFromImage im).drop data.length).take
          (im.w * im.h * 3 / 8 - 36 - data.length)
      ++ (putUint32 data.length
      ++ (if p.doHash then E.sha256 data
          else (GetHiddenBytesFromImage im).drop (im.w * im.h * 3 / 8 - 32))))) := by
  have h36 : data.length + 36 ≤ im.w * im.h * 3 / 8 := by
    by_cases hk : p.keyFile = []
    · rw [if_neg (by simp [hk])] at hreq
      simp only [HASH_SIZE, FSIZE_LEN] at hreq
      omega
    · rw [if_pos hk] at hreq
      simp only [RSA_SIZE] at hreq
      omega
  have h0len : (GetHiddenBytesFromImage im).length = im.w * im.h * 3 / 8 :=
    getHiddenBytes_length im
  have hA : ¬ (data.length > 2 ^ 32 - 1) := by omega
  have hB : ¬ ((NewImageByteWriter im).capacity
      < (if p.keyFile ≠ [] then data.length + E.gcmOverhead + RSA_SIZE
        else data.length + HASH_SIZE + FSIZE_LEN)) := by
    have hc : (NewImageByteWriter im).capacity = im.w * im.h * 3 / 8 := rfl
    rw [hc]
    exact Nat.not_lt.mpr hreq
  simp only [envelopePrep]
  rw [if_neg hA, if_neg hB]
  have hclean := env_regions data (GetHiddenBytesFromImage im) (im.w * im.h * 3 / 8)
    h0len h36
  rw [hclean]
  obtain ⟨hlen, htakeD, hdrop36, htake4, hdrop32, htake32⟩ :=
    env_fields data
      (((GetHiddenBytesFromImage im).drop data.length).take
        (im.w * im.h * 3 / 8 - 36 - data.length))
      (putUint32 data.length)
      ((GetHiddenBytesFromImage im).drop (im.w * im.h * 3 / 8 - 32))
      (im.w * im.h * 3 / 8) h36
      (by rw [List.length_take, List.length_drop]; omega)
      (putUint32_length _)
      (by rw [List.length_drop]; omega)
  by_cases hdo : p.doHash
  · rw [if_pos hdo, if_pos hdo, hlen, htakeD,
      show im.w * im.h * 3 / 8 - HASH_SIZE = im.w * im.h * 3 / 8 - 32 from by
        simp only [HASH_SIZE],
      htake32]
    simp [List.append_assoc]
  · rw [if_neg hdo, if_neg hdo]

/-- Parsing a well-formed plain envelope whose length field holds the
payload length: the length checks pass and the result is decided by the
hash comparison alone. -/
theorem parsePlain_env (E : Ext) (p : Prog) (D M T : List Nat) (cap : Nat)
    (hD : D.length + 36 ≤ cap) (hM : M.length = cap - 36 - D.length)
    (hT : T.length = 32) (hpos : 1 ≤ D.length) (hcap32 : cap - 36 < 2 ^ 32) :
    parsePlain E p (D ++ (M ++ (putUint32 D.length ++ T)))
      = if p.doHash ∧ E.sha256 D ≠ T then .error .hashMismatch else .ok D := by
  obtain ⟨hlen, htakeD, hdrop36, htake4, hdrop32, htake32⟩ :=
    env_fields D M (putUint32 D.length) T cap hD hM (putUint32_length _) hT
  have hszlt : D.length < 2 ^ 32 := by omega
  unfold parsePlain
  rw [hlen]
  rw [if_neg (by simp only [HASH_SIZE, FSIZE_LEN]; omega)]
  have h36 : cap - HASH_SIZE - FSIZE_LEN = cap - 36 := by
    simp only [HASH_SIZE, FSIZE_LEN]
    omega
  rw [h36]
  simp only []
  have hfl : (FSIZE_LEN : Nat) = 4 := rfl
  rw [hfl, hdrop36, List.take_left' (putUint32_length D.length), beUint32_putUint32]
  rw [Nat.mod_eq_of_lt hszlt]
  rw [if_neg (by omega)]
  rw [if_neg (by rw [Nat.mod_eq_of_lt (by omega : cap - 36 < 2 ^ 32)]; omega)]
  rw [htakeD]
  have h32 : cap - HASH_SIZE = cap - 32 := by
    simp only [HASH_SIZE]
  rw [h32, hdrop32]

/-- Plain-mode round trip: encoding a nonempty payload that fits the
capacity and decoding the produced image with the same configuration
recovers exactly the payload. -/
theorem plain_roundtrip (E : Ext) (p : Prog) (im : Img) (ext data : List Nat)
    (hg : ∀ sd n j, E.gdraw sd n j ≤ j)
    (hsha_len : ∀ x, (E.sha256 x).length = 32)
    (hsha_lt : ∀ x b, b ∈ E.sha256 x → b < 256)
    (hkey : p.keyFile = [])
    (hpix : im.pix.length = im.w * im.h)
    (hdata : ∀ b ∈ data, b < 256)
    (hpos : 1 ≤ data.length)
    (hfit : data.length + 36 ≤ im.w * im.h * 3 / 8)
    (hcap32 : im.w * im.h * 3 / 8 - 36 < 2 ^ 32) :
    ∃ im', encodeImage E p im ext data = .ok im' ∧ decodeImage E p im' = .ok data := by
  have hsz32 : data.length ≤ 2 ^ 32 - 1 := by omega
  have hreq : (if p.keyFile ≠ [] then data.length + E.gcmOverhead + RSA_SIZE
      else data.length + HASH_SIZE + FSIZE_LEN) ≤ im.w * im.h * 3 / 8 := by
    rw [if_neg (by simp [hkey])]
    simp only [HASH_SIZE, FSIZE_LEN]
    omega
  have hrepr := envelopePrep_repr E p im data hsz32 hreq
  have hH0len : (GetHiddenBytesFromImage im).length = im.w * im.h * 3 / 8 :=
    getHiddenBytes_length im
  have hTlen : (if p.doHash then E.sha256 data
      else (GetHiddenBytesFromImage im).drop (im.w * im.h * 3 / 8 - 32)).length = 32 := by
    by_cases hdo : p.doHash
    · rw [if_pos hdo]
      exact hsha_len data
    · rw [if_neg hdo, List.length_drop, hH0len]
      omega
  have hMlen : (((GetHiddenBytesFromImage im).drop data.length).take
      (im.w * im.h * 3 / 8 - 36 - data.length)).length
      = im.w * im.h * 3 / 8 - 36 - data.length := by
    rw [List.length_take, List.length_drop, hH0len]
    omega
  have henvlen := (env_fields data
      (((GetHiddenBytesFromImage im).drop data.length).take
        (im.w * im.h * 3 / 8 - 36 - data.length))
      (putUint32 data.length)
      (if p.doHash then E.sha256 data
        else (GetHiddenBytesFromImage im).drop (im.w * im.h * 3 / 8 - 32))
      (im.w * im.h * 3 / 8) hfit hMlen (putUint32_length _) hTlen).1
  have hbound : ∀ b ∈ (data
      ++ ((((GetHiddenBytesFromImage im).drop data.length).take
          (im.w * im.h * 3 / 8 - 36 - data.length))
      ++ (putUint32 data.length
      ++ (if p.doHash then E.sha256 data
          else (GetHiddenBytesFromImage im).drop (im.w * im.h * 3 / 8 - 32))))),
      b < 256 := by
    intro b hb
    rcases List.mem_append.mp hb with h | hb2
    · exact hdata b h
    rcases List.mem_append.mp hb2 with h | hb3
    · exact getHiddenBytes_lt im b (List.mem_of_mem_drop (List.mem_of_mem_take h))
    rcases List.mem_append.mp hb3 with h | h4
    · exact putUint32_lt _ b h
    · by_cases hdo : p.doHash
      · rw [if_pos hdo] at h4
        exact hsha_lt data b h4
      · rw [if_neg hdo] at h4
        exact getHiddenBytes_lt im b (List.mem_of_mem_drop h4)
  set env := (data
      ++ ((((GetHiddenBytesFromImage im).drop data.length).take
          (im.w * im.h * 3 / 8 - 36 - data.length))
      ++ (putUint32 data.length
      ++ (if p.doHash then E.sha256 data
          else (GetHiddenBytesFromImage im).drop (im.w * im.h * 3 / 8 - 32))))) with henvdef
  have hparse : parsePlain E p env = .ok data := by
    rw [henvdef, parsePlain_env E p data _ _ (im.w * im.h * 3 / 8) hfit hMlen hTlen hpos hcap32]
    rw [if_neg ?_]
    rintro ⟨hdo, hne⟩
    apply hne
    rw [if_pos hdo]
  set hd5 := (if p.shuffleSeed ≠ [] then shuffle4 E p.shuffleSeed env else env) with hd5def
  have hd5len : hd5.length = im.w * im.h * 3 / 8 := by
    rw [hd5def]
    by_cases hsd : p.shuffleSeed = []
    · rw [if_neg (by simp [hsd])]
      exact henvlen
    · rw [if_pos (by simp [hsd]), shuffle4_eq, length_applySwaps]
      exact henvlen
  have hd5lt : ∀ b ∈ hd5, b < 256 := by
    rw [hd5def]
    by_cases hsd : p.shuffleSeed = []
    · rw [if_neg (by simp [hsd])]
      exact hbound
    · rw [if_pos (by simp [hsd])]
      exact shuffle4_bound E p.shuffleSeed env hg hbound
  obtain ⟨st, hwrun, hwim, hww, hwh, hwcap, hwcb, hwwf⟩ :=
    Write_run (NewImageByteWriter im) hd5 (WFW_new im hpix)
  have hnotr : ¬ ((NewImageByteWriter im).capacity - (NewImageByteWriter im).currentByte
      < hd5.length) := by
    have h1 : (NewImageByteWriter im).capacity = im.w * im.h * 3 / 8 := rfl
    have h2 : (NewImageByteWriter im).currentByte = 0 := rfl
    rw [h1, h2, hd5len]
    omega
  rw [if_neg hnotr] at hwrun
  refine ⟨st.im, ?_, ?_⟩
  · unfold encodeImage
    rw [hrepr]
    show encodeAfterPrep E p im ext data env = .ok st.im
    unfold encodeAfterPrep
    rw [if_neg (by simp [hkey])]
    show writeStage E p im env = .ok st.im
    unfold writeStage
    rw [← hd5def, hwrun]
  · unfold decodeImage
    have hex := extract_after_write im hd5 hpix hd5len hd5lt
    have hst2 : ((NewImageByteWriter im).Write hd5).2 = st := by
      rw [hwrun]
    rw [hst2] at hex
    show parsePlain E p (if p.shuffleSeed ≠ [] then
        decodeUnshuffle E p.shuffleSeed (GetHiddenBytesFromImage st.im)
      else GetHiddenBytesFromImage st.im) = .ok data
    rw [hex]
    by_cases hsd : p.shuffleSeed = []
    · rw [if_neg (by simp [hsd]), hd5def, if_neg (by simp [hsd])]
      exact hparse
    · rw [if_pos (by simp [hsd]), hd5def, if_pos (by simp [hsd]),
        unshuffle_shuffle E p.shuffleSeed env hg]
      exact hparse

theorem beUint32_lt4 (bs : List Nat) (hlen : bs.length = 4) (hb : ∀ b ∈ bs, b < 256) :
    beUint32 bs < 2 ^ 32 := by
  match bs, hlen with
  | [b0, b1, b2, b3], _ =>
    have h0 : b0 < 256 := hb b0 (by simp)
    have h1 : b1 < 256 := hb b1 (by simp)
    have h2 : b2 < 256 := hb b2 (by simp)
    have h3 : b3 < 256 := hb b3 (by simp)
    unfold beUint32
    simp only [List.foldl_cons, List.foldl_nil]
    omega

/-- Characterization of the whole plain-envelope parse stage over an
arbitrary capacity-sized buffer, by the value of its length field. -/
theorem parsePlain_cases (E : Ext) (p : Prog) (hd : List Nat) (cap : Nat)
    (hlen : hd.length = cap) (hcap : 36 ≤ cap) (hb : ∀ b ∈ hd, b < 256) :
    (beUint32 ((hd.drop (cap - 36)).take 4) = 0 →
      parsePlain E p hd = .error .lengthZero) ∧
    (beUint32 ((hd.drop (cap - 36)).take 4) > cap - 36 →
      parsePlain E p hd = .error .lengthTooLarge) ∧
    (beUint32 ((hd.drop (cap - 36)).take 4) = cap - 36 → 36 < cap →
      parsePlain E p hd
        = (if p.doHash ∧ E.sha256 (hd.take (cap - 36)) ≠ hd.drop (cap - 32)
            then .error .hashMismatch else .ok (hd.take (cap - 36)))) := by
  have hfield : beUint32 ((hd.drop (cap - 36)).take 4) < 2 ^ 32 := by
    refine beUint32_lt4 _ ?_ ?_
    · rw [List.length_take, List.length_drop, hlen]
      omega
    · intro b hbm
      exact hb b (List.mem_of_mem_drop (List.mem_of_mem_take hbm))
  have hunfold : parsePlain E p hd
      = (if beUint32 ((hd.drop (cap - 36)).take 4) = 0 then .error .lengthZero
        else if beUint32 ((hd.drop (cap - 36)).take 4) > (cap - 36) % 2 ^ 32 then
          .error .lengthTooLarge
        else if p.doHash ∧ E.sha256 (hd.take (beUint32 ((hd.drop (cap - 36)).take 4)))
            ≠ hd.drop (cap - 32) then .error .hashMismatch
        else .ok (hd.take (beUint32 ((hd.drop (cap - 36)).take 4)))) := by
    unfold parsePlain
    rw [hlen, if_neg (by simp only [HASH_SIZE, FSIZE_LEN]; omega)]
    have h36 : cap - HASH_SIZE - FSIZE_LEN = cap - 36 := by
      simp only [HASH_SIZE, FSIZE_LEN]
      omega
    have h32 : cap - HASH_SIZE = cap - 32 := by
      simp only [HASH_SIZE]
    rw [h36]
    simp only []
    rw [h32]
    rfl
  refine ⟨?_, ?_, ?_⟩
  · intro h0
    rw [hunfold, if_pos h0]
  · intro hgt
    rw [hunfold, if_neg (by omega)]
    rw [if_pos ?_]
    have hm : (cap - 36) % 2 ^ 32 ≤ cap - 36 := Nat.mod_le _ _
    omega
  · intro heq hcap36
    rw [hunfold, if_neg (by omega)]
    rw [if_neg ?_, heq]
    rw [heq, Nat.mod_eq_of_lt (by omega)]
    omega

/-- Exact value of `encryptDataWithRSA`'s three results, given the
external sizes (32-byte AES key, 12-byte GCM nonce, 8-byte timestamp). -/
theorem encryptDataWithRSA_spec (E : Ext) (data extension hashAndLength : List Nat) :
    encryptDataWithRSA E data extension hashAndLength
      = (E.gcmSeal E.aesKey E.gcmNonce data,
        E.aesKey ++ E.gcmNonce ++ E.timestampBytes
          ++ (extension.take 16 ++ List.replicate (16 - extension.length) 0)
          ++ (putUint32 (E.gcmSeal E.aesKey E.gcmNonce data).length ++ hashAndLength.drop 4),
        E.rsaEncrypt (E.aesKey ++ E.gcmNonce ++ E.timestampBytes
          ++ (extension.take 16 ++ List.replicate (16 - extension.length) 0)
          ++ (putUint32 (E.gcmSeal E.aesKey E.gcmNonce data).length ++ hashAndLength.drop 4))) := by
  unfold encryptDataWithRSA
  simp only []
  rw [List.take_left' (rfl : E.gcmNonce.length = E.gcmNonce.length)]
  rw [List.drop_left' rfl]

/-- Content of the RSA tail plaintext produced by an encrypted-mode
encode: 104 bytes, whose final 32 bytes are the payload hash only when
hashing is enabled, and the carrier-inherited bytes otherwise. -/
theorem rsaTail_content (E : Ext) (p : Prog) (im : Img) (ext data : List Nat)
    (hsha_len : ∀ x, (E.sha256 x).length = 32)
    (hkeylen : E.aesKey.length = 32) (hnoncelen : E.gcmNonce.length = 12)
    (htslen : E.timestampBytes.length = 8)
    (hkey : p.keyFile ≠ [])
    (hsz32 : data.length ≤ 2 ^ 32 - 1)
    (hreq : data.length + E.gcmOverhead + RSA_SIZE ≤ im.w * im.h * 3 / 8) :
    (encodeRsaTailPlain E p im ext data).map (fun t => (t.length, t.drop 72))
      = some (104, if p.doHash then E.sha256 data
          else (GetHiddenBytesFromImage im).drop (im.w * im.h * 3 / 8 - 32)) := by
  have hfit : data.length + 36 ≤ im.w * im.h * 3 / 8 := by
    simp only [RSA_SIZE] at hreq
    omega
  have hreq' : (if p.keyFile ≠ [] then data.length + E.gcmOverhead + RSA_SIZE
      else data.length + HASH_SIZE + FSIZE_LEN) ≤ im.w * im.h * 3 / 8 := by
    rw [if_pos hkey]
    exact hreq
  have hrepr := envelopePrep_repr E p im data hsz32 hreq'
  have hH0len : (GetHiddenBytesFromImage im).length = im.w * im.h * 3 / 8 :=
    getHiddenBytes_length im
  have hTlen : (if p.doHash then E.sha256 data
      else (GetHiddenBytesFromImage im).drop (im.w * im.h * 3 / 8 - 32)).length = 32 := by
    by_cases hdo : p.doHash
    · rw [if_pos hdo]
      exact hsha_len data
    · rw [if_neg hdo, List.length_drop, hH0len]
      omega
  have hMlen : (((GetHiddenBytesFromImage im).drop data.length).take
      (im.w * im.h * 3 / 8 - 36 - data.length)).length
      = im.w * im.h * 3 / 8 - 36 - data.length := by
    rw [List.length_take, List.length_drop, hH0len]
    omega
  obtain ⟨henvlen, henvtakeD, henvdrop36, henvtake4, henvdrop32, henvtake32⟩ :=
    env_fields data
      (((GetHiddenBytesFromImage im).drop data.length).take
        (im.w * im.h * 3 / 8 - 36 - data.length))
      (putUint32 data.length)
      (if p.doHash then E.sha256 data
        else (GetHiddenBytesFromImage im).drop (im.w * im.h * 3 / 8 - 32))
      (im.w * im.h * 3 / 8) hfit hMlen (putUint32_length _) hTlen
  set env := (data
      ++ ((((GetHiddenBytesFromImage im).drop data.length).take
          (im.w * im.h * 3 / 8 - 36 - data.length))
      ++ (putUint32 data.length
      ++ (if p.doHash then E.sha256 data
          else (GetHiddenBytesFromImage im).drop (im.w * im.h * 3 / 8 - 32))))) with henvdef
  have h1 : encodeRsaTailPlain E p im ext data
      = some ((encryptDataWithRSA E (env.take data.length) ext
        (env.drop (env.length - HASH_SIZE - FSIZE_LEN))).2.1) := by
    unfold encodeRsaTailPlain
    rw [hrepr]
  have h2 : env.drop (env.length - HASH_SIZE - FSIZE_LEN)
      = putUint32 data.length
        ++ (if p.doHash then E.sha256 data
          else (GetHiddenBytesFromImage im).drop (im.w * im.h * 3 / 8 - 32)) := by
    rw [henvlen, show im.w * im.h * 3 / 8 - HASH_SIZE - FSIZE_LEN
      = im.w * im.h * 3 / 8 - 36 from by simp only [HASH_SIZE, FSIZE_LEN]; omega]
    exact henvdrop36
  rw [h1, henvtakeD, h2, encryptDataWithRSA_spec]
  have hdrop4 : (putUint32 data.length
      ++ (if p.doHash then E.sha256 data
        else (GetHiddenBytesFromImage im).drop (im.w * im.h * 3 / 8 - 32))).drop 4
      = (if p.doHash then E.sha256 data
        else (GetHiddenBytesFromImage im).drop (im.w * im.h * 3 / 8 - 32)) :=
    List.drop_left' (putUint32_length _)
  rw [hdrop4]
  have hextlen : (ext.take 16 ++ List.replicate (16 - ext.length) 0).length = 16 := by
    rw [List.length_append, List.length_take, List.length_replicate]
    omega
  have hprefixlen : (E.aesKey ++ E.gcmNonce ++ E.timestampBytes
      ++ (ext.take 16 ++ List.replicate (16 - ext.length) 0)).length = 68 := by
    simp only [List.length_append, hkeylen, hnoncelen, htslen, hextlen]
  have htaillen : (E.aesKey ++ E.gcmNonce ++ E.timestampBytes
      ++ (ext.take 16 ++ List.replicate (16 - ext.length) 0)
      ++ (putUint32 (E.gcmSeal E.aesKey E.gcmNonce data).length
        ++ (if p.doHash then E.sha256 data
          else (GetHiddenBytesFromImage im).drop (im.w * im.h * 3 / 8 - 32)))).length
      = 104 := by
    rw [List.length_append, hprefixlen, List.length_append, putUint32_length, hTlen]
  have htaildrop : (E.aesKey ++ E.gcmNonce ++ E.timestampBytes
      ++ (ext.take 16 ++ List.replicate (16 - ext.length) 0)
      ++ (putUint32 (E.gcmSeal E.aesKey E.gcmNonce data).length
        ++ (if p.doHash then E.sha256 data
          else (GetHiddenBytesFromImage im).drop (im.w * im.h * 3 / 8 - 32)))).drop 72
      = (if p.doHash then E.sha256 data
        else (GetHiddenBytesFromImage im).drop (im.w * im.h * 3 / 8 - 32)) := by
    rw [show (72 : Nat) = (E.aesKey ++ E.gcmNonce ++ E.timestampBytes
      ++ (ext.take 16 ++ List.replicate (16 - ext.length) 0)).length + 4 from by
        rw [hprefixlen]]
    rw [List.drop_append]
    exact hdrop4
  rw [Option.map_some', htaillen, htaildrop]

/-- The trailing 32 bytes of the plain envelope: the payload hash when
hashing is enabled, the carrier-inherited bytes otherwise. -/
theorem plainEnvelope_hashRegion (E : Ext) (p : Prog) (im : Img) (data : List Nat)
    (hsha_len : ∀ x, (E.sha256 x).length = 32)
    (hkey : p.keyFile = [])
    (hsz32 : data.length ≤ 2 ^ 32 - 1)
    (hfit : data.length + 36 ≤ im.w * im.h * 3 / 8) :
    (envelopePrep E p im data).map (fun env => env.drop (im.w * im.h * 3 / 8 - 32))
      = .ok (if p.doHash then E.sha256 data
          else (GetHiddenBytesFromImage im).drop (im.w * im.h * 3 / 8 - 32)) := by
  have hreq' : (if p.keyFile ≠ [] then data.length + E.gcmOverhead + RSA_SIZE
      else data.length + HASH_SIZE + FSIZE_LEN) ≤ im.w * im.h * 3 / 8 := by
    rw [if_neg (by simp [hkey])]
    simp only [HASH_SIZE, FSIZE_LEN]
    omega
  have hrepr := envelopePrep_repr E p im data hsz32 hreq'
  have hH0len : (GetHiddenBytesFromImage im).length = im.w * im.h * 3 / 8 :=
    getHiddenBytes_length im
  have hTlen : (if p.doHash then E.sha256 data
      else (GetHiddenBytesFromImage im).drop (im.w * im.h * 3 / 8 - 32)).length = 32 := by
    by_cases hdo : p.doHash
    · rw [if_pos hdo]
      exact hsha_len data
    · rw [if_neg hdo, List.length_drop, hH0len]
      omega
  have hMlen : (((GetHiddenBytesFromImage im).drop data.length).take
      (im.w * im.h * 3 / 8 - 36 - data.length)).length
      = im.w * im.h * 3 / 8 - 36 - data.length := by
    rw [List.length_take, List.length_drop, hH0len]
    omega
  obtain ⟨henvlen, henvtakeD, henvdrop36, henvtake4, henvdrop32, henvtake32⟩ :=
    env_fields data
      (((GetHiddenBytesFromImage im).drop data.length).take
        (im.w * im.h * 3 / 8 - 36 - data.length))
      (putUint32 data.length)
      (if p.doHash then E.sha256 data
        else (GetHiddenBytesFromImage im).drop (im.w * im.h * 3 / 8 - 32))
      (im.w * im.h * 3 / 8) hfit hMlen (putUint32_length _) hTlen
  rw [hrepr]
  have hmap : (Except.ok (ε := EncError) (data
      ++ ((((GetHiddenBytesFromImage im).drop data.length).take
          (im.w * im.h * 3 / 8 - 36 - data.length))
      ++ (putUint32 data.length
      ++ (if p.doHash then E.sha256 data
          else (GetHiddenBytesFromImage im).drop (im.w * im.h * 3 / 8 - 32)))))).map
        (fun env => env.drop (im.w * im.h * 3 / 8 - 32))
      = .ok ((data
      ++ ((((GetHiddenBytesFromImage im).drop data.length).take
          (im.w * im.h * 3 / 8 - 36 - data.length))
      ++ (putUint32 data.length
      ++ (if p.doHash then E.sha256 data
          else (GetHiddenBytesFromImage im).drop
            (im.w * im.h * 3 / 8 - 32))))).drop (im.w * im.h * 3 / 8 - 32)) := rfl
  rw [hmap, henvdrop32]

/-- Claim C2 (confirmed): for every buffer `B` and seed `S`, the
decoder's unshuffle (replay of the 4-round shuffle on an identity index
array, then cycle-following swaps) applied to the encoder's 4-round
shuffle of `B` under `S` restores `B` exactly; the generator draws are
only assumed to lie in `[0, i]`, so this holds for every length,
including 0, 1, 2, 37 and the capacity. -/
theorem C2_shuffle_unshuffle_inverse (E : Ext) (s B : List Nat)
    (hg : ∀ sd n j, E.gdraw sd n j ≤ j) :
    decodeUnshuffle E s (shuffle4 E s B) = B :=
  unshuffle_shuffle E s B hg

theorem C2_witness :
    (∀ sd n j, EZ.gdraw sd n j ≤ j) ∧
      decodeUnshuffle EZ [97] (shuffle4 EZ [97] [5, 6, 7]) = [5, 6, 7] :=
  ⟨fun _ _ _ => Nat.zero_le _,
    C2_shuffle_unshuffle_inverse EZ [97] [5, 6, 7] (fun _ _ _ => Nat.zero_le _)⟩

/-- Claim C3 (confirmed): the capacity fixed at construction is
`w * h * 3 / 8` (floor division), and extracting the full hidden
bitstream returns exactly that many bytes, for every image and hence
every value of `w * h * 3 mod 8`. -/
theorem C3_capacity_arithmetic (im : Img) :
    (NewImageByteWriter im).capacity = im.w * im.h * 3 / 8 ∧
      (GetHiddenBytesFromImage im).length = im.w * im.h * 3 / 8 :=
  ⟨rfl, getHiddenBytes_length im⟩

/-- Claim C6 (corrected), counterexample: with the all-zero-draw
generator (a legal draw sequence) and any seed, for the 3-byte buffer
`[10, 20, 30]` the replayed index array is `[1, 2, 0]`, but the element
at position 0 does not reach position `idx[0] = 1`: position 1 of the
shuffled buffer holds 30, not 10. -/
theorem C6_counterexample :
    (∀ sd n j, EZ.gdraw sd n j ≤ j) ∧
      (decodeReplayIdx EZ [97] 3).getD 0 0 = 1 ∧
      (shuffle4 EZ [97] [10, 20, 30]).getD 1 0 = 30 ∧
      ¬ (shuffle4 EZ [97] [10, 20, 30]).getD ((decodeReplayIdx EZ [97] 3).getD 0 0) 0
        = [10, 20, 30].getD 0 0 := by
  refine ⟨fun _ _ _ => Nat.zero_le _, by decide, by decide, by decide⟩

/-- Claim C6 (corrected): after the decoder replays the 4-round shuffle
on an identity index array, `idx[i]` is the position FROM which the
forward shuffle moved an element TO position `i`: the shuffled buffer
holds at position `i` the original element of position `idx[i]` (and
`idx[i]` is in range). -/
theorem C6_replay_source_characterization (E : Ext) (s B : List Nat)
    (hg : ∀ sd n j, E.gdraw sd n j ≤ j) :
    ∀ i, i < B.length →
      (shuffle4 E s B).getD i 0 = B.getD ((decodeReplayIdx E s B.length).getD i 0) 0 ∧
      (decodeReplayIdx E s B.length).getD i 0 < B.length := by
  obtain ⟨hl, hx, hb, hinj, hrelk⟩ := shuffleRel_main E s B hg
  intro i hi
  exact ⟨hrelk i hi, hb i hi⟩

theorem C6_witness :
    (∀ sd n j, EZ.gdraw sd n j ≤ j) ∧
      (∀ i, i < ([10, 20, 30] : List Nat).length →
        (shuffle4 EZ [97] [10, 20, 30]).getD i 0
          = [10, 20, 30].getD
            ((decodeReplayIdx EZ [97] ([10, 20, 30] : List Nat).length).getD i 0) 0 ∧
        (decodeReplayIdx EZ [97] ([10, 20, 30] : List Nat).length).getD i 0
          < ([10, 20, 30] : List Nat).length) :=
  ⟨fun _ _ _ => Nat.zero_le _,
    C6_replay_source_characterization EZ [97] [10, 20, 30] (fun _ _ _ => Nat.zero_le _)⟩

/-- Claim C7 (confirmed): the four generator seeds of both the encode
shuffle and the decode replay are exactly the four consecutive 8-byte
big-endian words of `SHA-256(seed string)` reinterpreted as signed
64-bit values, consumed in order, each of the four sequential rounds
re-seeding the generator; each round is one descending Fisher–Yates pass
(`i` from `n - 1` down to 1, swapping `i` with the draw `d i`, whose
pairs are exactly `downSwaps`). -/
theorem C7_seed_derivation_and_rounds (E : Ext) (s l : List Nat) (n : Nat) (d : Nat → Nat) :
    (shuffle4 E s l
      = [toInt64 (beUint64 (((E.sha256 s).drop 0).take 8)),
         toInt64 (beUint64 (((E.sha256 s).drop 8).take 8)),
         toInt64 (beUint64 (((E.sha256 s).drop 16).take 8)),
         toInt64 (beUint64 (((E.sha256 s).drop 24).take 8))].foldl
          (fun acc sd => rShuffle (E.gdraw sd acc.length) acc.length acc) l) ∧
    (decodeReplayIdx E s n
      = [toInt64 (beUint64 (((E.sha256 s).drop 0).take 8)),
         toInt64 (beUint64 (((E.sha256 s).drop 8).take 8)),
         toInt64 (beUint64 (((E.sha256 s).drop 16).take 8)),
         toInt64 (beUint64 (((E.sha256 s).drop 24).take 8))].foldl
          (fun acc sd => rShuffle (E.gdraw sd acc.length) acc.length acc) (List.range n)) ∧
    (rShuffle d n l = applySwaps (downSwaps d (n - 1)) l) ∧
    (∀ q ∈ downSwaps d (n - 1), 1 ≤ q.1 ∧ q.1 ≤ n - 1 ∧ q.2 = d q.1) := by
  refine ⟨?_, ?_, fyDown_eq_applySwaps d (n - 1) l,
    fun q hq => downSwaps_mem d (n - 1) q hq⟩
  · rfl
  · rfl

theorem C7_witness :
    (shuffle4 EZ [97] [1, 2]
      = [toInt64 (beUint64 (((EZ.sha256 [97]).drop 0).take 8)),
         toInt64 (beUint64 (((EZ.sha256 [97]).drop 8).take 8)),
         toInt64 (beUint64 (((EZ.sha256 [97]).drop 16).take 8)),
         toInt64 (beUint64 (((EZ.sha256 [97]).drop 24).take 8))].foldl
          (fun acc sd => rShuffle (EZ.gdraw sd acc.length) acc.length acc) [1, 2]) ∧
    (decodeReplayIdx EZ [97] 2
      = [toInt64 (beUint64 (((EZ.sha256 [97]).drop 0).take 8)),
         toInt64 (beUint64 (((EZ.sha256 [97]).drop 8).take 8)),
         toInt64 (beUint64 (((EZ.sha256 [97]).drop 16).take 8)),
         toInt64 (beUint64 (((EZ.sha256 [97]).drop 24).take 8))].foldl
          (fun acc sd => rShuffle (EZ.gdraw sd acc.length) acc.length acc)
          (List.range 2)) ∧
    (rShuffle (fun _ => 0) 2 [1, 2] = applySwaps (downSwaps (fun _ => 0) (2 - 1)) [1, 2]) ∧
    (∀ q ∈ downSwaps (fun _ => 0) (2 - 1), 1 ≤ q.1 ∧ q.1 ≤ 2 - 1 ∧ q.2 = (fun _ => 0) q.1) :=
  C7_seed_derivation_and_rounds EZ [97] [1, 2] 2 (fun _ => 0)

set_option maxRecDepth 10000 in
/-- Claim C9 (confirmed): a pixel mutation of `colorEmbed` at a valid
channel position changes at most the least significant bit of that one
channel: its other 7 bits survive, the embedded bit becomes the new LSB,
the other two color channels and the alpha channel keep their values. -/
theorem C9_frame_effect (c : RGBA) (pos : Nat) (bit : Bool)
    (hpos : pos < 3) (hr : c.r < 256) (hg : c.g < 256) (hb : c.b < 256) :
    (colorEmbed c pos bit).a = c.a ∧
      chan (colorEmbed c pos bit) pos / 2 = chan c pos / 2 ∧
      chan (colorEmbed c pos bit) pos % 2 = (if bit then 1 else 0) ∧
      (∀ q, q < 3 → q ≠ pos → chan (colorEmbed c pos bit) q = chan c q) := by
  have hfact : ∀ b, b < 256 → (b ||| 1) / 2 = b / 2 ∧ (b ||| 1) % 2 = 1
      ∧ (b &&& 254) / 2 = b / 2 ∧ (b &&& 254) % 2 = 0 := by decide
  have hfr := hfact c.r hr
  have hfg := hfact c.g hg
  have hfb := hfact c.b hb
  interval_cases pos
  · cases bit
    · exact ⟨rfl, hfr.2.2.1, hfr.2.2.2,
        fun q h1 h2 => by interval_cases q <;> first | exact absurd rfl h2 | rfl⟩
    · exact ⟨rfl, hfr.1, hfr.2.1,
        fun q h1 h2 => by interval_cases q <;> first | exact absurd rfl h2 | rfl⟩
  · cases bit
    · exact ⟨rfl, hfg.2.2.1, hfg.2.2.2,
        fun q h1 h2 => by interval_cases q <;> first | exact absurd rfl h2 | rfl⟩
    · exact ⟨rfl, hfg.1, hfg.2.1,
        fun q h1 h2 => by interval_cases q <;> first | exact absurd rfl h2 | rfl⟩
  · cases bit
    · exact ⟨rfl, hfb.2.2.1, hfb.2.2.2,
        fun q h1 h2 => by interval_cases q <;> first | exact absurd rfl h2 | rfl⟩
    · exact ⟨rfl, hfb.1, hfb.2.1,
        fun q h1 h2 => by interval_cases q <;> first | exact absurd rfl h2 | rfl⟩

theorem C9_witness :
    (0 : Nat) < 3 ∧ (7 : Nat) < 256 ∧ (8 : Nat) < 256 ∧ (9 : Nat) < 256 ∧
      ((colorEmbed ⟨7, 8, 9, 10⟩ 0 true).a = (⟨7, 8, 9, 10⟩ : RGBA).a ∧
        chan (colorEmbed ⟨7, 8, 9, 10⟩ 0 true) 0 / 2 = chan ⟨7, 8, 9, 10⟩ 0 / 2 ∧
        chan (colorEmbed ⟨7, 8, 9, 10⟩ 0 true) 0 % 2 = (if true then 1 else 0) ∧
        (∀ q, q < 3 → q ≠ 0 → chan (colorEmbed ⟨7, 8, 9, 10⟩ 0 true) q
          = chan ⟨7, 8, 9, 10⟩ q)) :=
  ⟨by decide, by decide, by decide, by decide,
    C9_frame_effect ⟨7, 8, 9, 10⟩ 0 true (by decide) (by decide) (by decide) (by decide)⟩

/-- Parsing a well-formed plain envelope with a ZERO length field is
rejected with the zero-length error. -/
theorem parsePlain_env_zero (E : Ext) (p : Prog) (D M T : List Nat) (cap : Nat)
    (hD0 : D.length = 0) (hM : M.length = cap - 36 - D.length)
    (hT : T.length = 32) (hcap : 36 ≤ cap) :
    parsePlain E p (D ++ (M ++ (putUint32 D.length ++ T))) = .error .lengthZero := by
  obtain ⟨hlen, htakeD, hdrop36, htake4, hdrop32, htake32⟩ :=
    env_fields D M (putUint32 D.length) T cap (by omega) hM (putUint32_length _) hT
  unfold parsePlain
  rw [hlen]
  rw [if_neg (by simp only [HASH_SIZE, FSIZE_LEN]; omega)]
  have h36 : cap - HASH_SIZE - FSIZE_LEN = cap - 36 := by
    simp only [HASH_SIZE, FSIZE_LEN]
    omega
  rw [h36]
  simp only []
  have hfl : (FSIZE_LEN : Nat) = 4 := rfl
  rw [hfl, hdrop36, List.take_left' (putUint32_length D.length), beUint32_putUint32]
  rw [hD0, Nat.zero_mod]
  rw [if_pos rfl]

/-- Encoding the EMPTY payload in plain mode succeeds (the capacity check
only needs 36 spare bytes), but decoding the produced image is rejected:
the zero length field trips the zero-length check. -/
theorem plain_empty_reject (E : Ext) (p : Prog) (im : Img) (ext : List Nat)
    (hg : ∀ sd n j, E.gdraw sd n j ≤ j)
    (hsha_len : ∀ x, (E.sha256 x).length = 32)
    (hsha_lt : ∀ x b, b ∈ E.sha256 x → b < 256)
    (hkey : p.keyFile = [])
    (hpix : im.pix.length = im.w * im.h)
    (hfit : 36 ≤ im.w * im.h * 3 / 8) :
    ∃ im', encodeImage E p im ext [] = .ok im'
      ∧ decodeImage E p im' = .error .lengthZero := by
  have hfit' : ([] : List Nat).length + 36 ≤ im.w * im.h * 3 / 8 := by
    simpa using hfit
  have hsz32 : ([] : List Nat).length ≤ 2 ^ 32 - 1 := by simp
  have hreq : (if p.keyFile ≠ [] then ([] : List Nat).length + E.gcmOverhead + RSA_SIZE
      else ([] : List Nat).length + HASH_SIZE + FSIZE_LEN) ≤ im.w * im.h * 3 / 8 := by
    rw [if_neg (by simp [hkey])]
    simp only [HASH_SIZE, FSIZE_LEN]
    simpa using hfit
  have hrepr := envelopePrep_repr E p im [] hsz32 hreq
  have hH0len : (GetHiddenBytesFromImage im).length = im.w * im.h * 3 / 8 :=
    getHiddenBytes_length im
  have hTlen : (if p.doHash then E.sha256 []
      else (GetHiddenBytesFromImage im).drop (im.w * im.h * 3 / 8 - 32)).length = 32 := by
    by_cases hdo : p.doHash
    · rw [if_pos hdo]
      exact hsha_len []
    · rw [if_neg hdo, List.length_drop, hH0len]
      omega
  have hMlen : (((GetHiddenBytesFromImage im).drop ([] : List Nat).length).take
      (im.w * im.h * 3 / 8 - 36 - ([] : List Nat).length)).length
      = im.w * im.h * 3 / 8 - 36 - ([] : List Nat).length := by
    rw [List.length_take, List.length_drop, hH0len]
    simp
  have henvlen := (env_fields ([] : List Nat)
      (((GetHiddenBytesFromImage im).drop ([] : List Nat).length).take
        (im.w * im.h * 3 / 8 - 36 - ([] : List Nat).length))
      (putUint32 ([] : List Nat).length)
      (if p.doHash then E.sha256 []
        else (GetHiddenBytesFromImage im).drop (im.w * im.h * 3 / 8 - 32))
      (im.w * im.h * 3 / 8) hfit' hMlen (putUint32_length _) hTlen).1
  have hbound : ∀ b ∈ (([] : List Nat)
      ++ ((((GetHiddenBytesFromImage im).drop ([] : List Nat).length).take
          (im.w * im.h * 3 / 8 - 36 - ([] : List Nat).length))
      ++ (putUint32 ([] : List Nat).length
      ++ (if p.doHash then E.sha256 []
          else (GetHiddenBytesFromImage im).drop (im.w * im.h * 3 / 8 - 32))))),
      b < 256 := by
    intro b hb
    rcases List.mem_append.mp hb with h | hb2
    · exact absurd h (List.not_mem_nil b)
    rcases List.mem_append.mp hb2 with h | hb3
    · exact getHiddenBytes_lt im b (List.mem_of_mem_drop (List.mem_of_mem_take h))
    rcases List.mem_append.mp hb3 with h | h4
    · exact putUint32_lt _ b h
    · by_cases hdo : p.doHash
      · rw [if_pos hdo] at h4
        exact hsha_lt [] b h4
      · rw [if_neg hdo] at h4
        exact getHiddenBytes_lt im b (List.mem_of_mem_drop h4)
  set env := (([] : List Nat)
      ++ ((((GetHiddenBytesFromImage im).drop ([] : List Nat).length).take
          (im.w * im.h * 3 / 8 - 36 - ([] : List Nat).length))
      ++ (putUint32 ([] : List Nat).length
      ++ (if p.doHash then E.sha256 []
          else (GetHiddenBytesFromImage im).drop (im.w * im.h * 3 / 8 - 32))))) with henvdef
  have hparse : parsePlain E p env = .error .lengthZero := by
    rw [henvdef]
    exact parsePlain_env_zero E p ([] : List Nat) _ _ (im.w * im.h * 3 / 8)
      rfl hMlen hTlen hfit
  set hd5 := (if p.shuffleSeed ≠ [] then shuffle4 E p.shuffleSeed env else env) with hd5def
  have hd5len : hd5.length = im.w * im.h * 3 / 8 := by
    rw [hd5def]
    by_cases hsd : p.shuffleSeed = []
    · rw [if_neg (by simp [hsd])]
      exact henvlen
    · rw [if_pos (by simp [hsd]), shuffle4_eq, length_applySwaps]
      exact henvlen
  have hd5lt : ∀ b ∈ hd5, b < 256 := by
    rw [hd5def]
    by_cases hsd : p.shuffleSeed = []
    · rw [if_neg (by simp [hsd])]
      exact hbound
    · rw [if_pos (by simp [hsd])]
      exact shuffle4_bound E p.shuffleSeed env hg hbound
  obtain ⟨st, hwrun, hwim, hww, hwh, hwcap, hwcb, hwwf⟩ :=
    Write_run (NewImageByteWriter im) hd5 (WFW_new im hpix)
  have hnotr : ¬ ((NewImageByteWriter im).capacity - (NewImageByteWriter im).currentByte
      < hd5.length) := by
    have h1 : (NewImageByteWriter im).capacity = im.w * im.h * 3 / 8 := rfl
    have h2 : (NewImageByteWriter im).currentByte = 0 := rfl
    rw [h1, h2, hd5len]
    omega
  rw [if_neg hnotr] at hwrun
  refine ⟨st.im, ?_, ?_⟩
  · unfold encodeImage
    rw [hrepr]
    show encodeAfterPrep E p im ext [] env = .ok st.im
    unfold encodeAfterPrep
    rw [if_neg (by simp [hkey])]
    show writeStage E p im env = .ok st.im
    unfold writeStage
    rw [← hd5def, hwrun]
  · unfold decodeImage
    have hex := extract_after_write im hd5 hpix hd5len hd5lt
    have hst2 : ((NewImageByteWriter im).Write hd5).2 = st := by
      rw [hwrun]
    rw [hst2] at hex
    show parsePlain E p (if p.shuffleSeed ≠ [] then
        decodeUnshuffle E p.shuffleSeed (GetHiddenBytesFromImage st.im)
      else GetHiddenBytesFromImage st.im) = .error .lengthZero
    rw [hex]
    by_cases hsd : p.shuffleSeed = []
    · rw [if_neg (by simp [hsd]), hd5def, if_neg (by simp [hsd])]
      exact hparse
    · rw [if_pos (by simp [hsd]), hd5def, if_pos (by simp [hsd]),
        unshuffle_shuffle E p.shuffleSeed env hg]
      exact hparse

/-- The bit accumulator turns `8 n` zero bits into `n` zero bytes. -/
theorem accBytes_zero_blocks : ∀ n, accBytes 0 0 (List.replicate (8 * n) false)
    = List.replicate n 0 := by
  intro n
  induction n with
  | zero => rfl
  | succ n ih =>
    rw [show 8 * (n + 1) = 8 + 8 * n from by ring, List.replicate_add]
    rw [accBytes_append_block _ _ _ _ (by omega) (by simp)]
    rw [show accBytes 0 0 (List.replicate 8 false) = [0] from by decide, ih]
    rfl

/-- Each all-zero pixel contributes three zero LSBs to the stream. -/
theorem flatMap_pixBits_replicate_zero (n : Nat) :
    (List.replicate n (⟨0, 0, 0, 0⟩ : RGBA)).flatMap pixBits
      = List.replicate (3 * n) false := by
  induction n with
  | zero => rfl
  | succ n ih =>
    rw [List.replicate_succ, List.flatMap_cons, ih]
    rw [show 3 * (n + 1) = 3 + 3 * n from by ring, List.replicate_add]
    rfl

/-- The hidden bytes of the all-zero 28×26 carrier are 273 zero bytes. -/
theorem getHiddenBytes_imE : GetHiddenBytesFromImage imE = List.replicate 273 0 := by
  have hlen : imE.pix.length = imE.w * imE.h := by
    rw [show imE.pix = List.replicate 728 ⟨0, 0, 0, 0⟩ from rfl, List.length_replicate]
    rfl
  rw [getHiddenBytes_eq_accBytes, travBits_eq_lsbStream imE hlen]
  show accBytes 0 0 ((List.replicate 728 (⟨0, 0, 0, 0⟩ : RGBA)).flatMap pixBits) = _
  rw [flatMap_pixBits_replicate_zero]
  rw [show 3 * 728 = 8 * 273 from by norm_num]
  exact accBytes_zero_blocks 273

/-- Claim C1 (corrected), counterexample: the empty payload satisfies
`len(P) ≤ capacity - 36` on a capacity-37 carrier and encodes
successfully, but decoding the produced image rejects the zero length
field instead of emitting `P`. -/
theorem C1_counterexample :
    ([] : List Nat).length ≤ imZ.w * imZ.h * 3 / 8 - 36 ∧
      ∃ im', encodeImage EZ pPlainNoHash imZ [] [] = .ok im' ∧
        decodeImage EZ pPlainNoHash im' = .error DecError.lengthZero := by
  refine ⟨by decide, ?_⟩
  exact plain_empty_reject EZ pPlainNoHash imZ [] (fun _ _ _ => Nat.zero_le _)
    (fun _ => rfl) (fun _ b hb => by rw [List.eq_of_mem_replicate hb]; omega)
    rfl rfl (by decide)

/-- Claim C1 (corrected): plain-mode round trip for NONEMPTY payloads:
for every carrier and payload `P` with `1 ≤ len(P) ≤ capacity - 36`
(and `capacity - 36` within the 32-bit range of the length field), no
key file, the same shuffle seed — possibly none — and the same hash
setting on encode and decode, the encode succeeds and decoding the
produced image emits exactly `P`.  The empty payload is excluded: its
zero length field is rejected at decode. -/
theorem C1_plain_roundtrip_nonempty (E : Ext) (p : Prog) (im : Img) (ext data : List Nat)
    (hg : ∀ sd n j, E.gdraw sd n j ≤ j)
    (hsha_len : ∀ x, (E.sha256 x).length = 32)
    (hsha_lt : ∀ x b, b ∈ E.sha256 x → b < 256)
    (hkey : p.keyFile = [])
    (hpix : im.pix.length = im.w * im.h)
    (hdata : ∀ b ∈ data, b < 256)
    (hpos : 1 ≤ data.length)
    (hfit : data.length + 36 ≤ im.w * im.h * 3 / 8)
    (hcap32 : im.w * im.h * 3 / 8 - 36 < 2 ^ 32) :
    ∃ im', encodeImage E p im ext data = .ok im' ∧ decodeImage E p im' = .ok data :=
  plain_roundtrip E p im ext data hg hsha_len hsha_lt hkey hpix hdata hpos hfit hcap32

theorem C1_witness :
    (∀ sd n j, EZ.gdraw sd n j ≤ j) ∧
      (∀ x, (EZ.sha256 x).length = 32) ∧
      (∀ x b, b ∈ EZ.sha256 x → b < 256) ∧
      pPlainSeedHash.keyFile = [] ∧
      imZ.pix.length = imZ.w * imZ.h ∧
      (∀ b ∈ [65], b < 256) ∧
      1 ≤ ([65] : List Nat).length ∧
      ([65] : List Nat).length + 36 ≤ imZ.w * imZ.h * 3 / 8 ∧
      imZ.w * imZ.h * 3 / 8 - 36 < 2 ^ 32 ∧
      ∃ im', encodeImage EZ pPlainSeedHash imZ [] [65] = .ok im' ∧
        decodeImage EZ pPlainSeedHash im' = .ok [65] :=
  ⟨fun _ _ _ => Nat.zero_le _, fun _ => rfl,
    fun _ b hb => by rw [List.eq_of_mem_replicate hb]; omega,
    rfl, rfl, by decide, by decide, by decide, by decide,
    C1_plain_roundtrip_nonempty EZ pPlainSeedHash imZ [] [65]
      (fun _ _ _ => Nat.zero_le _) (fun _ => rfl)
      (fun _ b hb => by rw [List.eq_of_mem_replicate hb]; omega)
      rfl rfl (by decide) (by decide) (by decide) (by decide)⟩

/-- Claim C4 (corrected), counterexample: on a capacity-36 buffer, the
length field that equals `capacity - 36` is the zero field, and the
parse rejects it as zero length instead of accepting it. -/
theorem C4_counterexample :
    (List.replicate 36 0 : List Nat).length = 36 ∧
      beUint32 (((List.replicate 36 0 : List Nat).drop (36 - 36)).take 4) = 36 - 36 ∧
      parsePlain EZ pPlainHash (List.replicate 36 0) = .error DecError.slicePanic ∨
      parsePlain EZ pPlainHash (List.replicate 36 0) = .error DecError.lengthZero := by
  right
  rfl

/-- Claim C4 (corrected): for every capacity-sized byte buffer, the
plain parse fails with a zero-length error when the 4-byte big-endian
field at `capacity - 36` is zero, fails with a length-too-large error
when it exceeds `capacity - 36`, and when it equals `capacity - 36`
exactly AND `capacity > 36` it is accepted, proceeding to the hash
verification and payload output (at `capacity = 36` the only such field
is zero, which is rejected). -/
theorem C4_parse_boundary (E : Ext) (p : Prog) (hd : List Nat) (cap : Nat)
    (hlen : hd.length = cap) (hcap : 36 ≤ cap) (hb : ∀ b ∈ hd, b < 256) :
    (beUint32 ((hd.drop (cap - 36)).take 4) = 0 →
      parsePlain E p hd = .error .lengthZero) ∧
    (beUint32 ((hd.drop (cap - 36)).take 4) > cap - 36 →
      parsePlain E p hd = .error .lengthTooLarge) ∧
    (beUint32 ((hd.drop (cap - 36)).take 4) = cap - 36 → 36 < cap →
      parsePlain E p hd
        = (if p.doHash ∧ E.sha256 (hd.take (cap - 36)) ≠ hd.drop (cap - 32)
            then .error .hashMismatch else .ok (hd.take (cap - 36)))) :=
  parsePlain_cases E p hd cap hlen hcap hb

theorem C4_witness :
    (List.replicate 37 5 : List Nat).length = 37 ∧ 36 ≤ 37 ∧
      (∀ b ∈ (List.replicate 37 5 : List Nat), b < 256) ∧
      ((beUint32 (((List.replicate 37 5 : List Nat).drop (37 - 36)).take 4) = 0 →
        parsePlain EZ pPlainHash (List.replicate 37 5) = .error .lengthZero) ∧
      (beUint32 (((List.replicate 37 5 : List Nat).drop (37 - 36)).take 4) > 37 - 36 →
        parsePlain EZ pPlainHash (List.replicate 37 5) = .error .lengthTooLarge) ∧
      (beUint32 (((List.replicate 37 5 : List Nat).drop (37 - 36)).take 4) = 37 - 36 →
        36 < 37 →
        parsePlain EZ pPlainHash (List.replicate 37 5)
          = (if pPlainHash.doHash ∧
              EZ.sha256 ((List.replicate 37 5 : List Nat).take (37 - 36))
                ≠ (List.replicate 37 5 : List Nat).drop (37 - 32)
              then .error .hashMismatch
              else .ok ((List.replicate 37 5 : List Nat).take (37 - 36))))) :=
  ⟨by decide, by decide, by decide,
    C4_parse_boundary EZ pPlainHash (List.replicate 37 5) 37 (by decide) (by decide)
      (by decide)⟩

/-- Claim C5 (corrected), counterexample: encoding with a key file and
the hash-disable flag set, over an all-zero carrier and a hash function
returning all-ones, leaves carrier-inherited zero bytes in the tail's
hash field — not the payload hash. -/
theorem C5_counterexample :
    pEncNoHash.keyFile ≠ [] ∧ pEncNoHash.doHash = false ∧
      EO.sha256 [65] = List.replicate 32 1 ∧
      (encodeRsaTailPlain EO pEncNoHash imE [] [65]).map (fun t => t.drop 72)
        = some (List.replicate 32 0) ∧
      ¬ (encodeRsaTailPlain EO pEncNoHash imE [] [65]).map (fun t => t.drop 72)
        = some (EO.sha256 [65]) := by
  have h := rsaTail_content EO pEncNoHash imE [] [65] (fun _ => rfl) rfl rfl rfl
    (by decide) (by decide) (by decide)
  rw [if_neg (by decide), getHiddenBytes_imE,
    show imE.w * imE.h * 3 / 8 - 32 = 241 from by decide, List.drop_replicate,
    show (273 - 241 : Nat) = 32 from by decide] at h
  rcases hopt : encodeRsaTailPlain EO pEncNoHash imE [] [65] with _ | t
  · rw [hopt] at h
    exact absurd h (by simp)
  · rw [hopt] at h
    simp only [Option.map_some'] at h
    injection h with h
    have h2 : t.drop 72 = List.replicate 32 0 := congrArg Prod.snd h
    refine ⟨by decide, rfl, rfl, ?_, ?_⟩
    · simp only [Option.map_some']
      exact congrArg some h2
    · intro hc
      simp only [Option.map_some'] at hc
      injection hc with hc
      rw [h2] at hc
      exact absurd hc (by decide)

/-- Claim C5 (corrected): the RSA tail plaintext of an encrypted-mode
encode is 104 bytes whose final 32 bytes equal SHA-256 of the payload
ONLY when hashing is enabled; when the hash-disable flag is set they are
the carrier-inherited bytes of the hash region instead. -/
theorem C5_tail_hash (E : Ext) (p : Prog) (im : Img) (ext data : List Nat)
    (hsha_len : ∀ x, (E.sha256 x).length = 32)
    (hkeylen : E.aesKey.length = 32) (hnoncelen : E.gcmNonce.length = 12)
    (htslen : E.timestampBytes.length = 8)
    (hkey : p.keyFile ≠ [])
    (hsz32 : data.length ≤ 2 ^ 32 - 1)
    (hreq : data.length + E.gcmOverhead + RSA_SIZE ≤ im.w * im.h * 3 / 8) :
    (encodeRsaTailPlain E p im ext data).map (fun t => (t.length, t.drop 72))
      = some (104, if p.doHash then E.sha256 data
          else (GetHiddenBytesFromImage im).drop (im.w * im.h * 3 / 8 - 32)) :=
  rsaTail_content E p im ext data hsha_len hkeylen hnoncelen htslen hkey hsz32 hreq

theorem C5_witness :
    (∀ x, (EO.sha256 x).length = 32) ∧ EO.aesKey.length = 32 ∧
      EO.gcmNonce.length = 12 ∧ EO.timestampBytes.length = 8 ∧
      pEncHash.keyFile ≠ [] ∧ ([65] : List Nat).length ≤ 2 ^ 32 - 1 ∧
      ([65] : List Nat).length + EO.gcmOverhead + RSA_SIZE ≤ imE.w * imE.h * 3 / 8 ∧
      (encodeRsaTailPlain EO pEncHash imE [] [65]).map (fun t => (t.length, t.drop 72))
        = some (104, if pEncHash.doHash then EO.sha256 [65]
            else (GetHiddenBytesFromImage imE).drop (imE.w * imE.h * 3 / 8 - 32)) :=
  ⟨fun _ => rfl, rfl, rfl, rfl, by decide, by decide, by decide,
    C5_tail_hash EO pEncHash imE [] [65] (fun _ => rfl) rfl rfl rfl (by decide)
      (by decide) (by decide)⟩

set_option maxRecDepth 100000 in
/-- Claim C8 (corrected), counterexample: with hashing disabled, a
carrier whose LSBs are all ones yields a plain envelope whose trailing
32 bytes are all 255 — present in the fixed-size buffer and not
all-zero. -/
theorem C8_counterexample :
    (envelopePrep EZ pPlainNoHash imO [65]).map
        (fun env => env.drop (imO.w * imO.h * 3 / 8 - 32))
      = .ok (List.replicate 32 255) ∧
      (envelopePrep EZ pPlainNoHash imO [65]).map (fun env => env.length) = .ok 37 ∧
      ¬ (envelopePrep EZ pPlainNoHash imO [65]).map
        (fun env => env.drop (imO.w * imO.h * 3 / 8 - 32))
      = .ok (List.replicate 32 0) := by
  refine ⟨rfl, rfl, ?_⟩
  intro hc
  rw [show (envelopePrep EZ pPlainNoHash imO [65]).map
      (fun env => env.drop (imO.w * imO.h * 3 / 8 - 32))
      = .ok (List.replicate 32 255) from rfl] at hc
  injection hc with hc
  exact absurd hc (by decide)

/-- Claim C8 (corrected): in the envelope of a plain encode, the
trailing 32 bytes at `capacity - 32` equal SHA-256 of the payload when
hashing is enabled; when hashing is disabled they retain the
carrier-inherited bytes of that region (not necessarily zero, and never
absent — the envelope is always a full `capacity`-byte buffer). -/
theorem C8_hash_region (E : Ext) (p : Prog) (im : Img) (data : List Nat)
    (hsha_len : ∀ x, (E.sha256 x).length = 32)
    (hkey : p.keyFile = [])
    (hsz32 : data.length ≤ 2 ^ 32 - 1)
    (hfit : data.length + 36 ≤ im.w * im.h * 3 / 8) :
    (envelopePrep E p im data).map (fun env => env.drop (im.w * im.h * 3 / 8 - 32))
      = .ok (if p.doHash then E.sha256 data
          else (GetHiddenBytesFromImage im).drop (im.w * im.h * 3 / 8 - 32)) :=
  plainEnvelope_hashRegion E p im data hsha_len hkey hsz32 hfit

theorem C8_witness :
    (∀ x, (EZ.sha256 x).length = 32) ∧ pPlainHash.keyFile = [] ∧
      ([65] : List Nat).length ≤ 2 ^ 32 - 1 ∧
      ([65] : List Nat).length + 36 ≤ imZ.w * imZ.h * 3 / 8 ∧
      (envelopePrep EZ pPlainHash imZ [65]).map
          (fun env => env.drop (imZ.w * imZ.h * 3 / 8 - 32))
        = .ok (if pPlainHash.doHash then EZ.sha256 [65]
            else (GetHiddenBytesFromImage imZ).drop (imZ.w * imZ.h * 3 / 8 - 32)) :=
  ⟨fun _ => rfl, rfl, by decide, by decide,
    C8_hash_region EZ pPlainHash imZ [65] (fun _ => rfl) rfl (by decide) (by decide)⟩

/-- Claim C10 (confirmed): a write call whose byte count exceeds the
remaining capacity truncates the input to the remaining capacity before
writing, writes all of the truncated bytes into the carrier, returns
that count, and signals the end-of-capacity condition (`io.EOF`). -/
theorem C10_write_truncation (ibw : ImageByteWriter) (data : List Nat)
    (hwf : WFW ibw) (hgt : ibw.capacity - ibw.currentByte < data.length) :
    ∃ st, ibw.Write data = ((ibw.capacity - ibw.currentByte, some IOError.eof), st) ∧
      st.im = applyBits ibw.im (8 * ibw.currentByte)
        (bitsOfBytes (data.take (ibw.capacity - ibw.currentByte))) ∧
      st.currentByte = ibw.currentByte + (ibw.capacity - ibw.currentByte) ∧
      WFW st := by
  obtain ⟨st, hrun, him, hw, hh, hcap, hcb, hwf'⟩ := Write_run ibw data hwf
  rw [if_pos hgt] at hrun
  have hmin : min data.length (ibw.capacity - ibw.currentByte)
      = ibw.capacity - ibw.currentByte := by omega
  rw [hmin] at hrun hcb
  exact ⟨st, hrun, him, hcb, hwf'⟩

theorem C10_witness :
    WFW (NewImageByteWriter imZ) ∧
      (NewImageByteWriter imZ).capacity - (NewImageByteWriter imZ).currentByte
        < (List.replicate 40 7 : List Nat).length ∧
      ∃ st, (NewImageByteWriter imZ).Write (List.replicate 40 7)
          = (((NewImageByteWriter imZ).capacity - (NewImageByteWriter imZ).currentByte,
              some IOError.eof), st) ∧
        st.im = applyBits (NewImageByteWriter imZ).im
          (8 * (NewImageByteWriter imZ).currentByte)
          (bitsOfBytes ((List.replicate 40 7 : List Nat).take
            ((NewImageByteWriter imZ).capacity - (NewImageByteWriter imZ).currentByte))) ∧
        st.currentByte = (NewImageByteWriter imZ).currentByte
          + ((NewImageByteWriter imZ).capacity - (NewImageByteWriter imZ).currentByte) ∧
        WFW st :=
  ⟨WFW_new imZ rfl, by decide,
    C10_write_truncation (NewImageByteWriter imZ) (List.replicate 40 7)
      (WFW_new imZ rfl) (by decide)⟩

end Stuffer

